import Mathlib

/-!
Verification of the rtlib rendering core against its specification.

The Rust sources are shallowly embedded in Lean 4.  Machine `f32` arithmetic
is idealized as exact rational arithmetic (`ℚ`); `u32` arithmetic is embedded
as natural-number arithmetic reduced modulo `2 ^ 32` exactly where the Rust
semantics wraps.  Fallible operations (panics, index errors) are embedded with
`Option`.  Square roots do not exist in `ℚ`, so the few places where the code
takes a square root are parametrized by the square-root function; every claim
settled here is independent of the parameter or constrains it by the defining
property of a square root at the points where it is used.
-/

/-- Three-component vector, from src/vec.rs (`Vec3`), components idealized as `ℚ`. -/
structure Vec3 where
  x : ℚ
  y : ℚ
  z : ℚ
deriving DecidableEq, Repr

/-- Three-component point, from src/vec.rs (`Point3`). -/
structure Point3 where
  x : ℚ
  y : ℚ
  z : ℚ
deriving DecidableEq, Repr

/-- Surface normal, from src/vec.rs (`Normal`); named `Normal3` because `Normal`
is taken by Mathlib. -/
structure Normal3 where
  x : ℚ
  y : ℚ
  z : ℚ
deriving DecidableEq, Repr

/-- Componentwise sum of vectors (`impl Add for Vec3`). -/
def Vec3.add (a b : Vec3) : Vec3 := ⟨a.x + b.x, a.y + b.y, a.z + b.z⟩

/-- Componentwise difference of vectors (`impl Sub for Vec3`). -/
def Vec3.sub (a b : Vec3) : Vec3 := ⟨a.x - b.x, a.y - b.y, a.z - b.z⟩

/-- Negation of a vector (`impl Neg for Vec3`). -/
def Vec3.neg (a : Vec3) : Vec3 := ⟨-a.x, -a.y, -a.z⟩

/-- Scalar multiple of a vector (`impl Mul<f32> for Vec3`). -/
def Vec3.smul (a : Vec3) (s : ℚ) : Vec3 := ⟨a.x * s, a.y * s, a.z * s⟩

/-- Dot product of vectors (`impl Mul for Vec3`, non-fma branch). -/
def Vec3.dot (a b : Vec3) : ℚ := a.x * b.x + a.y * b.y + a.z * b.z

/-- Squared length of a vector (`Vec3::length_sqr`). -/
def Vec3.length_sqr (a : Vec3) : ℚ := a.dot a

/-- Normalization of a vector (`Vec3::normalize`); the `f32` square root is a
parameter because `ℚ` has no square-root function. -/
def Vec3.normalizeWith (sqrtq : ℚ → ℚ) (a : Vec3) : Vec3 :=
  a.smul (sqrtq a.length_sqr)⁻¹

/-- Difference of points, giving a vector (`impl Sub for Point3`). -/
def Point3.sub (a b : Point3) : Vec3 := ⟨a.x - b.x, a.y - b.y, a.z - b.z⟩

/-- Point translated by a vector (`impl Add<Vec3> for Point3`). -/
def Point3.addVec (a : Point3) (v : Vec3) : Point3 := ⟨a.x + v.x, a.y + v.y, a.z + v.z⟩

/-- Componentwise minimum of points (`Point3::min`). -/
def Point3.min (a b : Point3) : Point3 := ⟨Min.min a.x b.x, Min.min a.y b.y, Min.min a.z b.z⟩

/-- Componentwise maximum of points (`Point3::max`). -/
def Point3.max (a b : Point3) : Point3 := ⟨Max.max a.x b.x, Max.max a.y b.y, Max.max a.z b.z⟩

/-- Squared distance between points (`Point3::distance_sqr`). -/
def Point3.distance_sqr (a b : Point3) : ℚ := (a.sub b).length_sqr

/-- Dot product of a normal with a vector (`impl Mul<Vec3> for Normal`,
non-fma branch). -/
def Normal3.dotVec (n : Normal3) (v : Vec3) : ℚ := n.x * v.x + n.y * v.y + n.z * v.z

/-- Negation of a normal (`impl Neg for Normal`). -/
def Normal3.neg (n : Normal3) : Normal3 := ⟨-n.x, -n.y, -n.z⟩

/-- View of a vector as a normal (`impl From<Vec3> for Normal`). -/
def Normal3.ofVec (v : Vec3) : Normal3 := ⟨v.x, v.y, v.z⟩

/-- Color with three `f32` components, from src/color.rs (`RGB`). -/
structure RGB where
  r : ℚ
  g : ℚ
  b : ℚ
deriving DecidableEq, Repr

/-- Black (`RGB::zero`). -/
def RGB.zero : RGB := ⟨0, 0, 0⟩

/-- Componentwise sum of colors (`impl Add for RGB`). -/
def RGB.add (a b : RGB) : RGB := ⟨a.r + b.r, a.g + b.g, a.b + b.b⟩

/-- Componentwise product of colors (`impl Mul<RGB> for RGB`). -/
def RGB.mul (a b : RGB) : RGB := ⟨a.r * b.r, a.g * b.g, a.b * b.b⟩

/-- Scalar multiple of a color (`impl Mul<f32> for RGB`). -/
def RGB.smul (a : RGB) (s : ℚ) : RGB := ⟨a.r * s, a.g * s, a.b * s⟩

/-- Axis-aligned bounding box, from src/bbox.rs and src/shapes.rs (`AABB`). -/
structure AABB where
  min : Point3
  max : Point3
deriving DecidableEq, Repr

/-- Union of two boxes (`AABB::union`). -/
def AABB.union (a b : AABB) : AABB := ⟨a.min.min b.min, a.max.max b.max⟩

/-- Centroid of a box (`AABB::centroid`). -/
def AABB.centroid (a : AABB) : Point3 :=
  ⟨(a.min.x + a.max.x) * (1/2), (a.min.y + a.max.y) * (1/2), (a.min.z + a.max.z) * (1/2)⟩

/-- Transformations are embedded by their action on points: the sources use a
`Transformation` only through `rhs * point` here, and the `Matrix4x4 * Point3`
operator itself is not part of the sources. -/
structure Transformation where
  app : Point3 → Point3

/-- Product of a bounding box with a transformation, from src/bbox.rs lines
45-61 and the identical src/shapes.rs lines 35-51 (`impl Mul<Transformation>
for AABB`): the eight transformed points are `min`, `max`, and the six
`min`/`max` offsets by combinations of the x and y extents that the code
actually uses. -/
def AABB.mulTransformation (b : AABB) (rhs : Transformation) : AABB :=
  let delta := b.max.sub b.min
  let p1 := rhs.app b.min
  let p2 := rhs.app b.max
  let p3 := rhs.app (b.min.addVec ⟨delta.x, 0, 0⟩)
  let p4 := rhs.app (b.min.addVec ⟨0, delta.y, 0⟩)
  let p5 := rhs.app (b.min.addVec ⟨delta.x, delta.y, 0⟩)
  let p6 := rhs.app (b.max.addVec ⟨delta.x, 0, 0⟩)
  let p7 := rhs.app (b.max.addVec ⟨0, delta.y, 0⟩)
  let p8 := rhs.app (b.max.addVec ⟨delta.x, delta.y, 0⟩)
  let min_p := ((((((p1.min p2).min p3).min p4).min p5).min p6).min p7).min p8
  let max_p := ((((((p1.max p2).max p3).max p4).max p5).max p6).max p7).max p8
  AABB.mk min_p max_p

/-- Modelled from the spec: the eight corner points of an axis-aligned box,
`min + (a·δx, b·δy, c·δz)` for `a, b, c ∈ \x7b0, 1\x7d` (spec section 4.6,
"the AABB of the transformed corner set (eight corners)"). -/
def AABB.corners (b : AABB) : List Point3 :=
  let d := b.max.sub b.min
  [b.min,
   b.min.addVec ⟨d.x, 0, 0⟩,
   b.min.addVec ⟨0, d.y, 0⟩,
   b.min.addVec ⟨0, 0, d.z⟩,
   b.min.addVec ⟨d.x, d.y, 0⟩,
   b.min.addVec ⟨d.x, 0, d.z⟩,
   b.min.addVec ⟨0, d.y, d.z⟩,
   b.max]

/-- Modelled from the spec: the axis-aligned bounding box of the images of the
eight corners of `b` under the transformation. -/
def AABB.transformedCornersAABB (b : AABB) (rhs : Transformation) : AABB :=
  let ps := b.corners.map rhs.app
  match ps with
  | [] => b
  | q :: qs => AABB.mk (qs.foldl Point3.min q) (qs.foldl Point3.max q)

/-- Mitchell filter parameters, from src/filter.rs (`MitchellFilter`). -/
structure MitchellFilter where
  xradius : ℚ
  yradius : ℚ
  b : ℚ
  c : ℚ
  inv_xradius : ℚ
  inv_yradius : ℚ
deriving DecidableEq, Repr

/-- Constructor `MitchellFilter::new`. -/
def MitchellFilter.new (xradius yradius b c : ℚ) : MitchellFilter :=
  ⟨xradius, yradius, b, c, 1 / xradius, 1 / yradius⟩

/-- Evaluation of the Mitchell filter as the code implements it
(`MitchellFilter::evaluate`, src/filter.rs lines 67-72): `0` outside the
radius and the constant `1` inside it. -/
def MitchellFilter.evaluate (f : MitchellFilter) (x y : ℚ) : ℚ :=
  if |x| > f.xradius ∨ |y| > f.yradius then 0 else 1

/-- Modelled from the spec: the one-dimensional Mitchell–Netravali
reconstruction kernel with parameters B and C (the filter the spec names in
section 4.10; src/filter.rs does not implement it). -/
def mitchell1d (b c x : ℚ) : ℚ :=
  if |x| < 1 then
    ((12 - 9*b - 6*c) * |x|^3 + (-18 + 12*b + 6*c) * |x|^2 + (6 - 2*b)) / 6
  else if |x| < 2 then
    ((-b - 6*c) * |x|^3 + (6*b + 30*c) * |x|^2 + (-12*b - 48*c) * |x| + (8*b + 24*c)) / 6
  else 0

/-- Modelled from the spec: the separable two-dimensional Mitchell–Netravali
reconstruction weight at offset `(dx, dy)` for a filter of radii
`(xradius, yradius)`, each axis rescaled to the kernel's support `[-2, 2]`. -/
def mitchellKernel (f : MitchellFilter) (dx dy : ℚ) : ℚ :=
  mitchell1d f.b f.c (2 * dx * f.inv_xradius) * mitchell1d f.b f.c (2 * dy * f.inv_yradius)

/-- Light sample, from src/lights.rs (`LightSample`). -/
structure LightSample where
  intensity : RGB
  position : Point3
  wi : Vec3
  pdfa : ℚ
  cos_theta : ℚ
deriving DecidableEq, Repr

/-- Point light, from src/lights.rs (`PointLight`). -/
structure PointLight where
  intensity : RGB
  position : Point3
deriving DecidableEq, Repr

/-- Illumination sample of a point light (`impl LightInterface for
PointLight`, src/lights.rs lines 32-46); the square root inside
`Vec3::normalize` is passed as a parameter. -/
def PointLight.illuminate (sqrtq : ℚ → ℚ) (l : PointLight) (hit : Point3) :
    Option LightSample :=
  let direction_to_light := l.position.sub hit
  let wi := direction_to_light.normalizeWith sqrtq
  let intensity := l.intensity.smul direction_to_light.length_sqr⁻¹
  some ⟨intensity, l.position, wi, 1, 1⟩

/-- Material evaluation sample, from src/materials.rs (`BSDFEvalSample`). -/
structure BSDFEvalSample where
  color : RGB
  pdfw : ℚ
deriving DecidableEq, Repr

/-- Conversion of a solid-angle pdf to an area pdf (`pdfw_to_a`,
src/integrators.rs lines 98-100). -/
def pdfw_to_a (pdfw dist cos_there : ℚ) : ℚ :=
  pdfw * |cos_there| / (dist * dist)

/-- Conversion of an area pdf to a solid-angle pdf (`pdfa_to_w`,
src/integrators.rs lines 102-104). -/
def pdfa_to_w (pdfa dist cos_there : ℚ) : ℚ :=
  pdfa * (dist * dist) / |cos_there|

/-- Per-light accumulation of `radiance_direct_lgt` (src/integrators.rs lines
133-162), embedded after the surface interaction has been computed: the hit
point, shading normal and `wo = -ray.direction` are inputs, the lights are
their `illuminate` maps, and the visibility test and the hit material's
`eval` are the caller-supplied functions that the trait objects dispatch to.
The square root inside `Point3::distance` is a parameter; the code only ever
squares that distance. -/
def radiance_direct_lgt (sqrtq : ℚ → ℚ) (hit_point : Point3) (normal : Normal3)
    (wo : Vec3) (lights : List (Point3 → Option LightSample))
    (visible : Point3 → Normal3 → Point3 → Bool)
    (eval : Vec3 → Normal3 → Vec3 → Option BSDFEvalSample) : RGB :=
  lights.foldl (fun acum light =>
    match light hit_point with
    | none => acum
    | some ls =>
      if visible hit_point normal ls.position then
        match eval wo normal ls.wi with
        | none => acum
        | some result =>
          let mat_spectrum := result.color
          let cosa := |ls.wi.dot ⟨normal.x, normal.y, normal.z⟩|
          let dist := sqrtq (hit_point.distance_sqr ls.position)
          let pdf := pdfa_to_w ls.pdfa dist ls.cos_theta
          acum.add ((mat_spectrum.mul ls.intensity).smul (cosa / pdf))
      else acum) RGB.zero

/-- Per-light contribution formula exactly as claim C2 words it: modelled from
the spec sentence "accumulate f · intensity · |n·wi| · d²/(pdf_a · cos_theta)",
with zero for invisible lights and for `eval` returning none. -/
def specDirectContribution (hit_point : Point3) (normal : Normal3) (wo : Vec3)
    (light : Point3 → Option LightSample)
    (visible : Point3 → Normal3 → Point3 → Bool)
    (eval : Vec3 → Normal3 → Vec3 → Option BSDFEvalSample) : RGB :=
  match light hit_point with
  | none => RGB.zero
  | some ls =>
    if visible hit_point normal ls.position then
      match eval wo normal ls.wi with
      | none => RGB.zero
      | some result =>
        let dsq := hit_point.distance_sqr ls.position
        (result.color.mul ls.intensity).smul
          (|ls.wi.dot ⟨normal.x, normal.y, normal.z⟩| * dsq / (ls.pdfa * ls.cos_theta))
    else RGB.zero

/-- Per-light contribution that the code actually adds, written in closed
form: f · intensity · |n·wi| · |cos_theta| / (pdf_a · d²), i.e. division by
the solid-angle pdf `pdf_w = pdf_a · d² / |cos θ|`. -/
def codeDirectContribution (hit_point : Point3) (normal : Normal3) (wo : Vec3)
    (light : Point3 → Option LightSample)
    (visible : Point3 → Normal3 → Point3 → Bool)
    (eval : Vec3 → Normal3 → Vec3 → Option BSDFEvalSample) : RGB :=
  match light hit_point with
  | none => RGB.zero
  | some ls =>
    if visible hit_point normal ls.position then
      match eval wo normal ls.wi with
      | none => RGB.zero
      | some result =>
        let dsq := hit_point.distance_sqr ls.position
        (result.color.mul ls.intensity).smul
          (|ls.wi.dot ⟨normal.x, normal.y, normal.z⟩| * |ls.cos_theta| / (ls.pdfa * dsq))
    else RGB.zero

/-- Color with three 8-bit components, from src/rgb.rs (`RGB8`). -/
structure RGB8 where
  red : ℕ
  green : ℕ
  blue : ℕ
deriving DecidableEq, Repr

/-- Rust saturating `f32 as u8` cast: truncate toward zero, clamp to
`[0, 255]`. -/
def f32AsU8 (q : ℚ) : ℕ := Min.min 255 (Int.toNat ⌊q⌋)

/-- Conversion of an accumulated color to 8 bits (`impl From<RGB> for RGB8`,
src/color.rs lines 75-82): each channel is multiplied by 256 and cast with
`as u8`. -/
def RGB8.ofRGB (rgb : RGB) : RGB8 :=
  ⟨f32AsU8 (rgb.r * 256), f32AsU8 (rgb.g * 256), f32AsU8 (rgb.b * 256)⟩

/-- Accumulated pixel sample, from src/color.rs (`PixelSample<RGB>`). -/
structure PixelSample where
  spectrum : RGB
  weight : ℚ
deriving DecidableEq, Repr

/-- Resolution of a pixel sample to a color (`impl From<PixelSample<T>> for
RGB`): black for zero weight, otherwise `spectrum * weight.recip()`. -/
def PixelSample.toRGB (s : PixelSample) : RGB :=
  if s.weight = 0 then RGB.zero else s.spectrum.smul s.weight⁻¹

/-- Tone-mapping operator tags, from src/color.rs (`TMOType`). -/
inductive TMOType where
  | Linear
  | Gamma
  | Reinhard
deriving DecidableEq, Repr

/-- Tone mapping (`tone_map`, src/color.rs lines 164-183).  The per-channel
`gamma_correct` is `x^(1/2.2)`, a transcendental function with no exact
rational counterpart, so it is a parameter `gc`; the Linear branch never uses
it. -/
def tone_map (gc : ℚ → ℚ) (tmo_type : TMOType) (spec : RGB) : RGB :=
  match tmo_type with
  | TMOType.Linear => spec
  | TMOType.Gamma => ⟨gc spec.r, gc spec.g, gc spec.b⟩
  | TMOType.Reinhard =>
      ⟨gc (spec.r / (spec.r + 1)), gc (spec.g / (spec.g + 1)), gc (spec.b / (spec.b + 1))⟩

/-- Accumulation buffer, from src/color.rs (`AccumlationBuffer`), kept as the
flat vector of pixel samples. -/
structure AccumlationBuffer where
  buffer : List PixelSample
deriving DecidableEq, Repr

/-- Conversion of the accumulation buffer to 8-bit output
(`AccumlationBuffer::to_rgb8_buffer`, src/color.rs lines 214-218): each sample
is resolved to a color, tone mapped, and converted to `RGB8`. -/
def AccumlationBuffer.to_rgb8_buffer (buf : AccumlationBuffer) (gc : ℚ → ℚ)
    (tmo_type : TMOType) : List RGB8 :=
  buf.buffer.map (fun sample => RGB8.ofRGB (tone_map gc tmo_type sample.toRGB))

/-- Per-channel output conversion exactly as claim C8 words it: modelled from
the spec sentence "then clamp×255→u8", read as clamping the tone-mapped channel
to `[0, 1]` and multiplying by 255 (truncating to an integer). -/
def specClampMul255 (q : ℚ) : ℕ := Int.toNat ⌊255 * Max.max 0 (Min.min 1 q)⌋

/-- Sphere primitive, from src/shapes.rs (`Sphere`). -/
structure Sphere where
  center : Point3
  radius : ℚ

/-- Shape wrapped with an optional object-to-world transform, from
src/shapes.rs (`TransformedShape<T>`), instantiated at `Sphere`. -/
structure TransformedSphere where
  shape : Sphere
  obj_to_world : Option Transformation

/-- Sphere primitive table, from src/shapes.rs (`Primitives<Sphere>`); the
linear intersector it also carries is built only by `prepare_for_rendering`
and holds no shape data. -/
structure SpherePrimitives where
  shapes : List TransformedSphere
  material_ids : List ℕ

/-- Constructor `Primitives::new`. -/
def SpherePrimitives.new : SpherePrimitives := ⟨[], []⟩

/-- Adding a sphere (`Primitives::add`). -/
def SpherePrimitives.add (p : SpherePrimitives) (shape : Sphere)
    (object_to_world : Option Transformation) (material_id : ℕ) : SpherePrimitives :=
  ⟨p.shapes ++ [⟨shape, object_to_world⟩], p.material_ids ++ [material_id]⟩

/-- Triangle mesh, from src/shapes.rs (`Mesh`): parallel vertex and index
arrays. -/
structure Mesh where
  vertices : List Point3
  indices : List ℕ

/-- Triangle handle, from src/shapes.rs (`Triangle`). -/
structure Triangle where
  mesh_id : ℕ
  triangle_id : ℕ

/-- Triangle-mesh primitive table, from src/shapes.rs (`Triangles`). -/
structure Triangles where
  meshes : List Mesh
  obj_to_world : List (Option Transformation)
  material_ids : List ℕ
  triangles : List Triangle

/-- Constructor `Triangles::new`. -/
def Triangles.new : Triangles := ⟨[], [], [], []⟩

/-- Geometry aggregate, from src/shapes.rs (`Geometry`). -/
structure Geometry where
  spheres : SpherePrimitives
  triangles : Triangles

/-- Constructor `Geometry::new`. -/
def Geometry.new : Geometry := ⟨SpherePrimitives.new, Triangles.new⟩

/-- Adding a sphere to the geometry (`Geometry::add_sphere`). -/
def Geometry.add_sphere (g : Geometry) (sphere : Sphere)
    (object_to_world : Option Transformation) (material_id : ℕ) : Geometry :=
  { g with spheres := g.spheres.add sphere object_to_world material_id }

/-- Shape kinds of a scene description, from src/shapes.rs (`ShapeType`). -/
inductive ShapeType where
  | Sphere
  | Mesh
deriving DecidableEq, Repr

/-- Scene shape description, from src/shapes.rs (`ShapeDescription`): note
that it carries only sphere data (a position, a radius, a material name and an
optional transform); there are no mesh fields. -/
structure ShapeDescription where
  typ : ShapeType
  material : String
  position : Point3
  radius : ℚ
  transform : Option Transformation

/-- Scene-geometry construction (`Geometry::from_shape_descriptions`,
src/shapes.rs lines 447-464).  Rust panics are embedded as `none`: the mesh
arm executes `panic!("Meshes are not supported yet")` (the `add_mesh` call
next to it is commented out), and indexing the material map with an unknown
name also panics.  The final `prepare_for_rendering` call builds acceleration
indices and changes no shape data, so it is the identity here. -/
def Geometry.from_shape_descriptions (descs : List ShapeDescription)
    (mat_names : String → Option ℕ) : Option Geometry :=
  descs.foldl
    (fun acc desc =>
      match acc with
      | none => none
      | some geometry =>
        match mat_names desc.material with
        | none => none
        | some material_id =>
          match desc.typ with
          | ShapeType.Sphere =>
              some (geometry.add_sphere ⟨desc.position, desc.radius⟩ desc.transform material_id)
          | ShapeType.Mesh => none)
    (some Geometry.new)

/-- Ray with origin and direction, from src/ray.rs (`Ray`). -/
structure Ray where
  origin : Point3
  direction : Vec3

/-- Componentwise reciprocal of the ray direction, computed identically at the
top of `LinearIntersector::intersect` and `BVH::intersect`. -/
def Ray.invDir (r : Ray) : Vec3 :=
  ⟨1 / r.direction.x, 1 / r.direction.y, 1 / r.direction.z⟩

/-- Branchless minimum from `isect_ray_bbox` (src/isect.rs lines 85-88), on
`WithTop ℚ` so that the `f32::INFINITY` start value of `tmax` is exact. -/
def slabMin (x y : WithTop ℚ) : WithTop ℚ := if x < y then x else y

/-- Branchless maximum from `isect_ray_bbox` (src/isect.rs lines 90-93). -/
def slabMax (x y : WithTop ℚ) : WithTop ℚ := if x > y then x else y

/-- Slab ray-box test, from src/isect.rs lines 83-117 (`isect_ray_bbox`,
Tavianator's boundary-inclusive form). -/
def isect_ray_bbox (ray_origin : Point3) (ray_inv_dir : Vec3)
    (bbox_min bbox_max : Point3) : Bool :=
  let tmin : WithTop ℚ := ((0 : ℚ) : WithTop ℚ)
  let tmax : WithTop ℚ := ⊤
  let t1 : WithTop ℚ := (((bbox_min.x - ray_origin.x) * ray_inv_dir.x : ℚ) : WithTop ℚ)
  let t2 : WithTop ℚ := (((bbox_max.x - ray_origin.x) * ray_inv_dir.x : ℚ) : WithTop ℚ)
  let tmin := slabMin (slabMax t1 tmin) (slabMax t2 tmin)
  let tmax := slabMax (slabMin t1 tmax) (slabMin t2 tmax)
  let t1 : WithTop ℚ := (((bbox_min.y - ray_origin.y) * ray_inv_dir.y : ℚ) : WithTop ℚ)
  let t2 : WithTop ℚ := (((bbox_max.y - ray_origin.y) * ray_inv_dir.y : ℚ) : WithTop ℚ)
  let tmin := slabMin (slabMax t1 tmin) (slabMax t2 tmin)
  let tmax := slabMax (slabMin t1 tmax) (slabMin t2 tmax)
  let t1 : WithTop ℚ := (((bbox_min.z - ray_origin.z) * ray_inv_dir.z : ℚ) : WithTop ℚ)
  let t2 : WithTop ℚ := (((bbox_max.z - ray_origin.z) * ray_inv_dir.z : ℚ) : WithTop ℚ)
  let tmin := slabMin (slabMax t1 tmin) (slabMax t2 tmin)
  let tmax := slabMax (slabMin t1 tmax) (slabMin t2 tmax)
  decide (tmin ≤ tmax)

/-- Ray-box test of a bounding box (`AABB::intersect`). -/
def AABB.intersect (b : AABB) (ray_origin : Point3) (ray_inv_direction : Vec3) : Bool :=
  isect_ray_bbox ray_origin ray_inv_direction b.min b.max

/-- Winning intersection record, from src/shapes.rs (`ShapeIntersection`). -/
structure ShapeIntersection where
  t : ℚ
  shape_id : ℕ
deriving DecidableEq, Repr

/-- One candidate update of the running closest hit: the shared
`if t < current_t` body of `LinearIntersector::intersect` and
`BVH::intersect`. -/
def bestStep (isect_fn : ℕ → Ray → Option ℚ) (ray : Ray) (s : ℚ × ℕ) (idx : ℕ) : ℚ × ℕ :=
  match isect_fn idx ray with
  | some t => if t < s.1 then (t, idx) else s
  | none => s

/-- Linear reference intersector, from src/shapes.rs (`LinearIntersector`). -/
structure LinearIntersector where
  bboxes : List AABB

/-- Bounding-box cache construction
(`LinearIntersector::prepare_for_rendering`). -/
def LinearIntersector.prepare_for_rendering (n_primitives : ℕ)
    (calculate_bbox_fn : ℕ → AABB) : LinearIntersector :=
  ⟨(List.range n_primitives).map calculate_bbox_fn⟩

/-- Reference linear intersection (`LinearIntersector::intersect`,
src/shapes.rs lines 70-95): every primitive whose cached box is hit is tested;
the sentinel `BIG_NUMBER` is `1e38`. -/
def LinearIntersector.intersect (li : LinearIntersector) (ray : Ray)
    (isect_fn : ℕ → Ray → Option ℚ) : Option ShapeIntersection :=
  let inv_rd := ray.invDir
  let st := li.bboxes.enum.foldl
    (fun s p =>
      if p.2.intersect ray.origin inv_rd then bestStep isect_fn ray s p.1 else s)
    ((10 : ℚ)^38, 0)
  if st.1 < (10 : ℚ)^38 then some ⟨st.1, st.2⟩ else none

/-- Flat BVH node, from src/bvh.rs (`BVHNode`). -/
structure BVHNode where
  bbox : AABB
  left_node : ℕ
  first_prim : ℕ
  num_prims : ℕ

/-- Leaf test (`BVHNode::is_leaf`). -/
def BVHNode.is_leaf (n : BVHNode) : Bool := n.num_prims > 0

/-- Placeholder node used to totalize out-of-bounds node reads (the Rust code
would panic there; the proofs only read in bounds). -/
def BVHNode.dummy : BVHNode := ⟨⟨⟨0,0,0⟩, ⟨0,0,0⟩⟩, 0, 0, 0⟩

/-- Bounding-volume hierarchy, from src/bvh.rs (`BVH`). -/
structure BVH where
  nodes : List BVHNode
  primitive_indices : List ℕ

/-- Coordinate access `Point3[axis]` (`impl Index<usize> for Point3`); the
code only ever indexes with 0, 1, 2. -/
def Point3.nth (p : Point3) (axis : ℕ) : ℚ :=
  if axis = 0 then p.x else if axis = 1 then p.y else p.z

/-- Coordinate access `Vec3[axis]` (`impl Index<usize> for Vec3`). -/
def Vec3.nth (v : Vec3) (axis : ℕ) : ℚ :=
  if axis = 0 then v.x else if axis = 1 then v.y else v.z

/-- Split-axis and split-position choice (`BVH::calculate_axis_and_split_pos`,
src/bvh.rs lines 113-123). -/
def BVH.calculate_axis_and_split_pos (bbox : AABB) : ℕ × ℚ :=
  let extent := bbox.max.sub bbox.min
  let axis := if extent.x > extent.y ∧ extent.x > extent.z then 0
              else if extent.y > extent.z then 1 else 2
  (axis, bbox.min.nth axis + extent.nth axis * (1/2))

/-- Box of a slice of the primitive-index array (`BVH::calculate_bbox`,
src/bvh.rs lines 125-131); the slice is never empty when the code calls it,
and the empty case is totalized with a degenerate box. -/
def BVH.calculate_bbox (prims : List ℕ) (start n_primitives : ℕ)
    (calculate_bbox_fn : ℕ → AABB) : AABB :=
  match (prims.drop start).take n_primitives with
  | [] => ⟨⟨0,0,0⟩, ⟨0,0,0⟩⟩
  | p :: ps => ps.foldl (fun acc q => acc.union (calculate_bbox_fn q)) (calculate_bbox_fn p)

/-- Two-pointer partition loop of `BVH::partition_primitives` (src/bvh.rs
lines 139-153), with explicit fuel; the loop runs at most `num_prims`
iterations, one per element of the slice. -/
def BVH.partitionLoop (calculate_bbox_fn : ℕ → AABB) (axis : ℕ) (split_pos : ℚ) :
    ℕ → List ℕ → ℤ → ℤ → List ℕ × ℤ × ℤ
  | 0, prims, i, j => (prims, i, j)
  | fuel+1, prims, i, j =>
    if i ≤ j then
      let prim := prims.getD i.toNat 0
      let c := ((calculate_bbox_fn prim).centroid).nth axis
      if c < split_pos then
        BVH.partitionLoop calculate_bbox_fn axis split_pos fuel prims (i+1) j
      else
        let tmp := prims.getD j.toNat 0
        let prims2 := (prims.set j.toNat (prims.getD i.toNat 0)).set i.toNat tmp
        BVH.partitionLoop calculate_bbox_fn axis split_pos fuel prims2 i (j-1)
    else (prims, i, j)

/-- In-place partition of a node's slice (`BVH::partition_primitives`,
src/bvh.rs lines 133-155); returns the permuted index array together with the
final two pointers. -/
def BVH.partition_primitives (prims : List ℕ) (bbox : AABB)
    (first_prim num_prims : ℕ) (calculate_bbox_fn : ℕ → AABB) : List ℕ × ℤ × ℤ :=
  let ap := BVH.calculate_axis_and_split_pos bbox
  BVH.partitionLoop calculate_bbox_fn ap.1 ap.2 (num_prims + 1) prims
    (first_prim : ℤ) ((first_prim : ℤ) + (num_prims : ℤ) - 1)

/-- Body of the top-down construction loop of `BVH::build` (src/bvh.rs lines
59-105), with the explicit stack as a list (head = top) and explicit fuel. -/
def BVH.buildLoop (calculate_bbox_fn : ℕ → AABB) :
    ℕ → List BVHNode → List ℕ → List ℕ → List BVHNode × List ℕ
  | 0, nodes, prims, _ => (nodes, prims)
  | fuel+1, nodes, prims, stack =>
    match stack with
    | [] => (nodes, prims)
    | node_idx :: rest =>
      let node := nodes.getD node_idx BVHNode.dummy
      if node.num_prims ≤ 2 then
        BVH.buildLoop calculate_bbox_fn fuel nodes prims rest
      else
        let part := BVH.partition_primitives prims node.bbox node.first_prim
          node.num_prims calculate_bbox_fn
        let prims2 := part.1
        let i0 := part.2.1
        let lc0 := i0 - (node.first_prim : ℤ)
        let i := if lc0 = 0 ∨ lc0 = (node.num_prims : ℤ)
          then (node.first_prim : ℤ) + (node.num_prims : ℤ) / 2 else i0
        let left_count := i - (node.first_prim : ℤ)
        let right_count := (node.num_prims : ℤ) - left_count
        let left_node : BVHNode :=
          ⟨BVH.calculate_bbox prims2 node.first_prim left_count.toNat calculate_bbox_fn,
           0, node.first_prim, left_count.toNat⟩
        let right_node : BVHNode :=
          ⟨BVH.calculate_bbox prims2 i.toNat right_count.toNat calculate_bbox_fn,
           0, i.toNat, right_count.toNat⟩
        let left_idx := nodes.length
        let nodes2 := nodes.set node_idx
          { node with left_node := left_idx, num_prims := 0 }
        let nodes3 := nodes2 ++ [left_node, right_node]
        BVH.buildLoop calculate_bbox_fn fuel nodes3 prims2 ((left_idx + 1) :: left_idx :: rest)

/-- Top-down BVH construction (`BVH::build`, src/bvh.rs lines 36-111).  The
fuel `2 * n + 1` dominates the loop's iteration count (at most one pop per
node ever created, and at most `2n - 1` nodes exist). -/
def BVH.build (n_primitives : ℕ) (calculate_bbox_fn : ℕ → AABB) : BVH :=
  let primitive_indices := List.range n_primitives
  if n_primitives = 0 then ⟨[], primitive_indices⟩
  else
    let root : BVHNode :=
      ⟨BVH.calculate_bbox primitive_indices 0 n_primitives calculate_bbox_fn,
       0, 0, n_primitives⟩
    let res := BVH.buildLoop calculate_bbox_fn (2 * n_primitives + 1)
      [root] primitive_indices [0]
    ⟨res.1, res.2⟩

/-- Body of the traversal loop of `BVH::intersect` (src/bvh.rs lines 171-198),
with the explicit stack as a list (head = top) and explicit fuel; the running
state is the pair `(current_t, primitive_id)`. -/
def BVH.intersectLoop (bvh : BVH) (ray : Ray) (inv_rd : Vec3)
    (isect_fn : ℕ → Ray → Option ℚ) :
    ℕ → List ℕ → ℚ × ℕ → ℚ × ℕ
  | 0, _, st => st
  | fuel+1, stack, st =>
    match stack with
    | [] => st
    | node_idx :: rest =>
      let node := bvh.nodes.getD node_idx BVHNode.dummy
      if node.bbox.intersect ray.origin inv_rd then
        if node.is_leaf then
          let st2 := ((bvh.primitive_indices.drop node.first_prim).take node.num_prims).foldl
            (bestStep isect_fn ray) st
          BVH.intersectLoop bvh ray inv_rd isect_fn fuel rest st2
        else
          BVH.intersectLoop bvh ray inv_rd isect_fn fuel
            ((node.left_node + 1) :: node.left_node :: rest) st
      else
        BVH.intersectLoop bvh ray inv_rd isect_fn fuel rest st

/-- BVH traversal (`BVH::intersect`, src/bvh.rs lines 157-204); the sentinel
`BIG_NUMBER` is `1e30` here, unlike the linear intersector's `1e38`.  The
fuel dominates the iteration count of any traversal of a well-formed tree
(at most `2c - 1` pops for a subtree over `c` primitives, and at most one
pop per node). -/
def BVH.intersect (bvh : BVH) (ray : Ray) (isect_fn : ℕ → Ray → Option ℚ) :
    Option ShapeIntersection :=
  let inv_rd := ray.invDir
  let st := BVH.intersectLoop bvh ray inv_rd isect_fn
    (2 * (bvh.nodes.length + bvh.primitive_indices.length) + 1) [0] ((10 : ℚ)^30, 0)
  if st.1 < (10 : ℚ)^30 then some ⟨st.1, st.2⟩ else none

/-- Bit-smearing of `n - 1` into a mask of the form `2^k - 1` (the `w`
computation of `permutation_element`, src/math.rs lines 47-52); the argument
is the `u32` value `n` and subtraction is natural (the code requires
`n ≥ 1`). -/
def wMask (n : ℕ) : ℕ :=
  let w := n - 1
  let w := w ||| (w >>> 1)
  let w := w ||| (w >>> 2)
  let w := w ||| (w >>> 4)
  let w := w ||| (w >>> 8)
  w ||| (w >>> 16)

/-- One pass of the hash body of `permutation_element` (the loop body,
src/math.rs lines 54-73).  `u32` wrapping multiplication is multiplication
modulo `2^32`; xors and masked shifts never leave the 32-bit range on their
own. -/
def permStep (seed w i0 : ℕ) : ℕ :=
  let i := i0 ^^^ seed
  let i := (i * 0xe170893d) % 2^32
  let i := i ^^^ (seed >>> 16)
  let i := i ^^^ ((i &&& w) >>> 4)
  let i := i ^^^ (seed >>> 8)
  let i := (i * 0x0929eb3f) % 2^32
  let i := i ^^^ (seed >>> 23)
  let i := i ^^^ ((i &&& w) >>> 1)
  let i := (i * (1 ||| (seed >>> 27))) % 2^32
  let i := (i * 0x6935fa69) % 2^32
  let i := i ^^^ ((i &&& w) >>> 11)
  let i := (i * 0x74dcb303) % 2^32
  let i := i ^^^ ((i &&& w) >>> 2)
  let i := (i * 0x9e501cc3) % 2^32
  let i := i ^^^ ((i &&& w) >>> 2)
  let i := (i * 0xc860a3df) % 2^32
  let i := i &&& w
  i ^^^ (i >>> 5)

/-- Cycle-walking loop of `permutation_element` (src/math.rs lines 54-75),
with explicit fuel: the hash body is applied repeatedly until the value drops
below `n`; running out of fuel models non-termination. -/
def permWalk (seed w n : ℕ) : ℕ → ℕ → Option ℕ
  | 0, _ => none
  | fuel+1, i =>
    let i2 := permStep seed w i
    if i2 < n then some i2 else permWalk seed w n fuel i2

/-- Kensler permutation function (`permutation_element`, src/math.rs lines
44-78).  The returned value is `(i.wrapping_add(seed)) % n` applied to the
accepted walk value.  `fuel` bounds the number of loop iterations; the Rust
function loops unboundedly, and `fuel = 2^32` dominates every terminating
run (the walk cycles within `[0, wMask n + 1)`). -/
def permutation_element (fuel index n seed : ℕ) : Option ℕ :=
  (permWalk seed (wMask n) n fuel index).map (fun i => ((i + seed) % 2^32) % n)

/-- Slice `prims[start .. start+len)` of a primitive-index array; proof
device for the BVH development. -/
def sliceL (prims : List ℕ) (start len : ℕ) : List ℕ :=
  (prims.drop start).take len

/-- Box containment `inner ⊆ outer`, componentwise; proof device. -/
def AABBsub (inner outer : AABB) : Prop :=
  outer.min.x ≤ inner.min.x ∧ outer.min.y ≤ inner.min.y ∧ outer.min.z ≤ inner.min.z ∧
  inner.max.x ≤ outer.max.x ∧ inner.max.y ≤ outer.max.y ∧ inner.max.z ≤ outer.max.z

/-- Componentwise validity `min ≤ max` of a box; proof device. -/
def AABBvalid (b : AABB) : Prop :=
  b.min.x ≤ b.max.x ∧ b.min.y ≤ b.max.y ∧ b.min.z ≤ b.max.z

/-- Well-formedness of the subtree of node `q` over the slice
`[f, f+c)` of the primitive-index array: leaves hold one or two primitives,
interior nodes have contiguous children splitting the slice, and every node's
box contains the boxes of all primitives of its slice.  This is the shape
`BVH::build` establishes; proof device. -/
inductive SubtreeOK (nodes : List BVHNode) (prims : List ℕ) (bb : ℕ → AABB) :
    ℕ → ℕ → ℕ → Prop where
  | leaf (q f c : ℕ)
      (hq : q < nodes.length)
      (hnum : (nodes.getD q BVHNode.dummy).num_prims = c)
      (hfirst : (nodes.getD q BVHNode.dummy).first_prim = f)
      (hc1 : 1 ≤ c) (hc2 : c ≤ 2)
      (hrange : f + c ≤ prims.length)
      (hbox : ∀ p ∈ sliceL prims f c, AABBsub (bb p) (nodes.getD q BVHNode.dummy).bbox) :
      SubtreeOK nodes prims bb q f c
  | node (q f c a : ℕ)
      (hq : q < nodes.length)
      (hnum : (nodes.getD q BVHNode.dummy).num_prims = 0)
      (hleft : SubtreeOK nodes prims bb (nodes.getD q BVHNode.dummy).left_node f a)
      (hright : SubtreeOK nodes prims bb ((nodes.getD q BVHNode.dummy).left_node + 1) (f + a) (c - a))
      (ha1 : 1 ≤ a) (ha2 : a < c)
      (hbox : ∀ p ∈ sliceL prims f c, AABBsub (bb p) (nodes.getD q BVHNode.dummy).bbox) :
      SubtreeOK nodes prims bb q f c

/-- Primitive ids the traversal tests below node `q`: every primitive of each
leaf reached through boxes the ray hits, children visited right child first as
in the traversal loop; fuel-recursive proof device (`fuel ≥ c` is enough for
a well-formed subtree over `c` primitives). -/
def candList (bvh : BVH) (ray : Ray) (inv_rd : Vec3) : ℕ → ℕ → List ℕ
  | 0, _ => []
  | fuel+1, q =>
    let node := bvh.nodes.getD q BVHNode.dummy
    if node.bbox.intersect ray.origin inv_rd then
      if node.is_leaf then
        (bvh.primitive_indices.drop node.first_prim).take node.num_prims
      else
        candList bvh ray inv_rd fuel (node.left_node + 1) ++
          candList bvh ray inv_rd fuel node.left_node
    else []

/-- Sum of the per-subtree iteration bounds `2c - 1` over a work stack of
`(node, first, count)` descriptors; proof device. -/
def stackMeasure (sl : List (ℕ × ℕ × ℕ)) : ℕ :=
  (sl.map (fun e => 2 * e.2.2 - 1)).sum

/-- Invariant tying the build loop's work stack to the node and index arrays:
every stack entry is a pending leaf with consistent fields and a box
containing its slice's primitive boxes, slices are pairwise disjoint, and the
stacked node indices are distinct; proof device. -/
def StackOK (bb : ℕ → AABB) (nodes : List BVHNode) (prims : List ℕ)
    (sl : List (ℕ × ℕ × ℕ)) : Prop :=
  (∀ e ∈ sl, e.1 < nodes.length ∧
    (nodes.getD e.1 BVHNode.dummy).first_prim = e.2.1 ∧
    (nodes.getD e.1 BVHNode.dummy).num_prims = e.2.2 ∧
    1 ≤ e.2.2 ∧ e.2.1 + e.2.2 ≤ prims.length ∧
    (∀ p ∈ sliceL prims e.2.1 e.2.2,
      AABBsub (bb p) (nodes.getD e.1 BVHNode.dummy).bbox)) ∧
  List.Pairwise (fun e1 e2 : ℕ × ℕ × ℕ =>
    e1.2.1 + e1.2.2 ≤ e2.2.1 ∨ e2.2.1 + e2.2.2 ≤ e1.2.1) sl ∧
  List.Pairwise (fun e1 e2 : ℕ × ℕ × ℕ => e1.1 ≠ e2.1) sl

/-- C1: for a scene description containing a mesh entry the construction does
not succeed: `Geometry::from_shape_descriptions` hits
`panic!("Meshes are not supported yet")` (src/shapes.rs line 457, the
`add_mesh` call being commented out), while the same construction with only
sphere entries completes.  This contradicts the claim (and spec scenario S3),
so the claim is right and the code wrong. -/
theorem C1_mesh_construction_panics :
    Geometry.from_shape_descriptions
      [⟨ShapeType.Mesh, "white", ⟨0, 0, 0⟩, 0, none⟩] (fun _ => some 0) = none ∧
    (Geometry.from_shape_descriptions
      [⟨ShapeType.Sphere, "white", ⟨0, 0, -2⟩, 1/2, none⟩] (fun _ => some 0)).isSome = true ∧
    Geometry.from_shape_descriptions
      [⟨ShapeType.Sphere, "white", ⟨0, 0, -2⟩, 1/2, none⟩,
       ⟨ShapeType.Mesh, "white", ⟨0, 0, 0⟩, 0, none⟩] (fun _ => some 0) = none :=
  ⟨rfl, rfl, rfl⟩

/-- C4: the product of a bounding box with a transformation is not the AABB of
the eight transformed corners.  For the unit box and the identity
transformation the code (src/bbox.rs lines 45-61 and src/shapes.rs lines
35-51) evaluates the transform at `max + (δx,0,0)`, `max + (0,δy,0)` and
`max + (δx,δy,0)`, which are not corners, and misses the four corners with
`z = max.z` other than `max`; the result is `[(0,0,0), (2,2,1)]` instead of
the corner AABB `[(0,0,0), (1,1,1)]`.  The spec ("the AABB of the transformed
corner set (eight corners)") is clearly the intent, so this is a code bug. -/
theorem C4_bbox_transform_is_not_corner_aabb :
    (AABB.mk ⟨0,0,0⟩ ⟨1,1,1⟩).mulTransformation ⟨id⟩ = AABB.mk ⟨0,0,0⟩ ⟨2,2,1⟩ ∧
    (AABB.mk ⟨0,0,0⟩ ⟨1,1,1⟩).transformedCornersAABB ⟨id⟩ = AABB.mk ⟨0,0,0⟩ ⟨1,1,1⟩ ∧
    (AABB.mk ⟨0,0,0⟩ ⟨1,1,1⟩).mulTransformation ⟨id⟩ ≠
      (AABB.mk ⟨0,0,0⟩ ⟨1,1,1⟩).transformedCornersAABB ⟨id⟩ := by
  have h1 : (AABB.mk ⟨0,0,0⟩ ⟨1,1,1⟩).mulTransformation ⟨id⟩ = AABB.mk ⟨0,0,0⟩ ⟨2,2,1⟩ := by
    with_unfolding_all rfl
  have h2 : (AABB.mk ⟨0,0,0⟩ ⟨1,1,1⟩).transformedCornersAABB ⟨id⟩ = AABB.mk ⟨0,0,0⟩ ⟨1,1,1⟩ := by
    with_unfolding_all rfl
  refine ⟨h1, h2, ?_⟩
  rw [h1, h2]
  simp only [ne_eq, AABB.mk.injEq, Point3.mk.injEq]
  norm_num

/-- C5: `MitchellFilter::evaluate` does not compute the Mitchell–Netravali
kernel: inside the radius it returns the constant `1` (the stored `b`, `c`,
`inv_xradius`, `inv_yradius` parameters are never read), so at offset
`(1, 0)` with the default radius 2 and `B = C = 1/3` it returns `1` where the
kernel value is `4/81`.  Outside the radius it does return `0`.  The spec
names Mitchell–Netravali as a supported filter, so the claim is right and the
code (an unfinished stub) wrong. -/
theorem C5_mitchell_evaluate_is_stub :
    (MitchellFilter.new 2 2 (1/3) (1/3)).evaluate 1 0 = 1 ∧
    mitchellKernel (MitchellFilter.new 2 2 (1/3) (1/3)) 1 0 = 4/81 ∧
    (MitchellFilter.new 2 2 (1/3) (1/3)).evaluate 1 0 ≠
      mitchellKernel (MitchellFilter.new 2 2 (1/3) (1/3)) 1 0 ∧
    (MitchellFilter.new 2 2 (1/3) (1/3)).evaluate 3 0 = 0 := by
  have h1 : (MitchellFilter.new 2 2 (1/3) (1/3)).evaluate 1 0 = 1 := by with_unfolding_all rfl
  have h2 : mitchellKernel (MitchellFilter.new 2 2 (1/3) (1/3)) 1 0 = 4/81 := by
    with_unfolding_all rfl
  refine ⟨h1, h2, ?_, by with_unfolding_all rfl⟩
  rw [h1, h2]
  norm_num

/-- C10: `PointLight::illuminate` always returns a sample, with `pdfa = 1`,
`cos_theta = 1`, the light's position, and the base intensity divided by the
squared distance — also when the shading point coincides with the light
position, where the squared distance is zero (idealized here by total
division; `f32` produces an infinity there). -/
theorem C10_point_light_always_illuminates (sqrtq : ℚ → ℚ) (l : PointLight) (hit : Point3) :
    ∃ ls : LightSample, l.illuminate sqrtq hit = some ls ∧
      ls.pdfa = 1 ∧ ls.cos_theta = 1 ∧ ls.position = l.position ∧
      ls.intensity = l.intensity.smul ((l.position.sub hit).length_sqr)⁻¹ :=
  ⟨_, rfl, rfl, rfl, rfl, rfl⟩

/-- C2 fails as stated: with one point-sample light at squared distance 4
(`pdf_a = 1`, `cos_theta = 1`), unit intensity, visibility true and
`eval = some (f = 1, pdf_w = 1)`, the integrator loop adds `1/4` per channel
(it divides by `pdf_w = pdf_a · d² / |cos θ| = 4`), while the claim's formula
`f · intensity · |n·wi| · d² / (pdf_a · cos_theta)` gives `4`. -/
theorem C2_direct_lighting_formula_counterexample :
    radiance_direct_lgt (fun q => if q = 4 then 2 else 0) ⟨0,0,0⟩ ⟨0,0,1⟩ ⟨0,0,1⟩
      [fun _ => some ⟨⟨1,1,1⟩, ⟨0,0,2⟩, ⟨0,0,1⟩, 1, 1⟩]
      (fun _ _ _ => true) (fun _ _ _ => some ⟨⟨1,1,1⟩, 1⟩) = ⟨1/4, 1/4, 1/4⟩ ∧
    RGB.zero.add (specDirectContribution ⟨0,0,0⟩ ⟨0,0,1⟩ ⟨0,0,1⟩
      (fun _ => some ⟨⟨1,1,1⟩, ⟨0,0,2⟩, ⟨0,0,1⟩, 1, 1⟩)
      (fun _ _ _ => true) (fun _ _ _ => some ⟨⟨1,1,1⟩, 1⟩)) = ⟨4, 4, 4⟩ ∧
    radiance_direct_lgt (fun q => if q = 4 then 2 else 0) ⟨0,0,0⟩ ⟨0,0,1⟩ ⟨0,0,1⟩
      [fun _ => some ⟨⟨1,1,1⟩, ⟨0,0,2⟩, ⟨0,0,1⟩, 1, 1⟩]
      (fun _ _ _ => true) (fun _ _ _ => some ⟨⟨1,1,1⟩, 1⟩) ≠
    RGB.zero.add (specDirectContribution ⟨0,0,0⟩ ⟨0,0,1⟩ ⟨0,0,1⟩
      (fun _ => some ⟨⟨1,1,1⟩, ⟨0,0,2⟩, ⟨0,0,1⟩, 1, 1⟩)
      (fun _ _ _ => true) (fun _ _ _ => some ⟨⟨1,1,1⟩, 1⟩)) := by
  have h1 : radiance_direct_lgt (fun q => if q = 4 then 2 else 0) ⟨0,0,0⟩ ⟨0,0,1⟩ ⟨0,0,1⟩
      [fun _ => some ⟨⟨1,1,1⟩, ⟨0,0,2⟩, ⟨0,0,1⟩, 1, 1⟩]
      (fun _ _ _ => true) (fun _ _ _ => some ⟨⟨1,1,1⟩, 1⟩) = RGB.mk (1/4) (1/4) (1/4) := by
    with_unfolding_all rfl
  have h2 : RGB.zero.add (specDirectContribution ⟨0,0,0⟩ ⟨0,0,1⟩ ⟨0,0,1⟩
      (fun _ => some ⟨⟨1,1,1⟩, ⟨0,0,2⟩, ⟨0,0,1⟩, 1, 1⟩)
      (fun _ _ _ => true) (fun _ _ _ => some ⟨⟨1,1,1⟩, 1⟩)) = RGB.mk 4 4 4 := by
    with_unfolding_all rfl
  refine ⟨h1, h2, ?_⟩
  rw [h1, h2]
  simp only [ne_eq, RGB.mk.injEq]
  norm_num

/-- C8 fails as stated: resolving the sample `(spectrum = 3/4, weight = 1)`
with the linear tone map, the code (`(x * 256.0) as u8`) produces channel
value 192, while "clamp then multiply by 255" gives `⌊255 · 3/4⌋ = 191`. -/
theorem C8_output_conversion_counterexample :
    AccumlationBuffer.to_rgb8_buffer ⟨[⟨⟨3/4, 3/4, 3/4⟩, 1⟩]⟩ id TMOType.Linear =
      [⟨192, 192, 192⟩] ∧
    specClampMul255 (3/4) = 191 ∧ (192 : ℕ) ≠ 191 := by
  refine ⟨by with_unfolding_all rfl, by with_unfolding_all rfl, by decide⟩

/-- Adding black changes nothing (componentwise). -/
theorem RGB.add_zero (a : RGB) : a.add RGB.zero = a := by
  cases a; simp [RGB.add, RGB.zero]

/-- C2 (amended): for every camera ray that hits geometry, the direct-lighting
integrator adds, for each light whose sample point is visible from the hit
point, the contribution `f · intensity · |n·wi| · |cos_theta| / (pdf_a · d²)`,
i.e. it divides by the solid-angle pdf `pdf_w = pdf_a · d² / |cos θ|`;
invisible lights and `eval` returning none contribute zero.  The hypothesis
pins the parametrized square root to its defining property at the sampled
light positions (`d² = distance_sqr`). -/
theorem C2_direct_lighting_divides_by_solid_angle_pdf (sqrtq : ℚ → ℚ)
    (hit_point : Point3) (normal : Normal3) (wo : Vec3)
    (lights : List (Point3 → Option LightSample))
    (visible : Point3 → Normal3 → Point3 → Bool)
    (eval : Vec3 → Normal3 → Vec3 → Option BSDFEvalSample)
    (hsq : ∀ light ∈ lights, ∀ ls, light hit_point = some ls →
      sqrtq (hit_point.distance_sqr ls.position) * sqrtq (hit_point.distance_sqr ls.position)
        = hit_point.distance_sqr ls.position) :
    radiance_direct_lgt sqrtq hit_point normal wo lights visible eval =
      lights.foldl
        (fun acum light =>
          acum.add (codeDirectContribution hit_point normal wo light visible eval))
        RGB.zero := by
  unfold radiance_direct_lgt
  apply List.foldl_ext
  intro acum light hmem
  cases hls : light hit_point with
  | none => simp [codeDirectContribution, hls, RGB.add_zero]
  | some ls =>
    by_cases hv : visible hit_point normal ls.position
    · cases hev : eval wo normal ls.wi with
      | none => simp [codeDirectContribution, hls, hev, hv, RGB.add_zero]
      | some result =>
        simp only [codeDirectContribution, hls, hev, hv, if_true]
        congr 1
        congr 1
        unfold pdfa_to_w
        rw [hsq light hmem ls hls]
        rw [div_div_eq_mul_div]
    · simp [codeDirectContribution, hls, hv, RGB.add_zero]

/-- Witness for the amended C2 theorem at the concrete one-light scene of the
counterexample: the loop and the closed-form sum agree there. -/
theorem C2_direct_lighting_divides_by_solid_angle_pdf_witness :
    radiance_direct_lgt (fun q => if q = 4 then 2 else 0) ⟨0,0,0⟩ ⟨0,0,1⟩ ⟨0,0,1⟩
      [fun _ => some ⟨⟨1,1,1⟩, ⟨0,0,2⟩, ⟨0,0,1⟩, 1, 1⟩]
      (fun _ _ _ => true) (fun _ _ _ => some ⟨⟨1,1,1⟩, 1⟩) =
    [fun _ => some (LightSample.mk ⟨1,1,1⟩ ⟨0,0,2⟩ ⟨0,0,1⟩ 1 1)].foldl
      (fun acum light =>
        acum.add (codeDirectContribution ⟨0,0,0⟩ ⟨0,0,1⟩ ⟨0,0,1⟩ light
          (fun _ _ _ => true) (fun _ _ _ => some ⟨⟨1,1,1⟩, 1⟩)))
      RGB.zero := by
  apply C2_direct_lighting_divides_by_solid_angle_pdf
  intro light hmem ls hls
  rw [List.mem_singleton] at hmem
  subst hmem
  have hls' : ls = LightSample.mk ⟨1,1,1⟩ ⟨0,0,2⟩ ⟨0,0,1⟩ 1 1 := by
    exact (Option.some_injective _ hls).symm
  subst hls'
  with_unfolding_all rfl

/-- C8 (amended): converting the accumulation buffer to 8-bit output resolves
`color = spectrum/weight` (black for zero weight), applies the selected
tone-map operator per channel, then obtains each `u8` channel by multiplying
by 256, truncating toward zero and saturating to `[0, 255]` (the Rust
`as u8` cast) — not by clamping and multiplying by 255. -/
theorem C8_resolve_tonemap_mul256_saturate (gc : ℚ → ℚ) (tmo : TMOType)
    (buf : AccumlationBuffer) (i : ℕ) (h : i < buf.buffer.length) :
    (buf.to_rgb8_buffer gc tmo).get? i =
      some (
        let s := buf.buffer.getD i ⟨RGB.zero, 0⟩
        let c : RGB := if s.weight = 0 then RGB.zero else
          ⟨s.spectrum.r / s.weight, s.spectrum.g / s.weight, s.spectrum.b / s.weight⟩
        let t := tone_map gc tmo c
        RGB8.mk (Min.min 255 (Int.toNat ⌊t.r * 256⌋))
          (Min.min 255 (Int.toNat ⌊t.g * 256⌋))
          (Min.min 255 (Int.toNat ⌊t.b * 256⌋))) := by
  unfold AccumlationBuffer.to_rgb8_buffer
  rw [List.get?_map, List.get?_eq_get h, List.getD_eq_get buf.buffer _ h]
  unfold RGB8.ofRGB f32AsU8 PixelSample.toRGB RGB.smul RGB.zero
  simp [div_eq_mul_inv]

/-- Witness for the amended C8 theorem at a concrete buffer: the sample
`(spectrum = (1/2, 2, -1), weight = 2)` resolves to `(1/4, 1, -1/2)` and
converts to `(64, 255, 0)`. -/
theorem C8_resolve_tonemap_mul256_saturate_witness :
    0 < (AccumlationBuffer.mk [⟨⟨1/2, 2, -1⟩, 2⟩]).buffer.length ∧
    (AccumlationBuffer.to_rgb8_buffer ⟨[⟨⟨1/2, 2, -1⟩, 2⟩]⟩ id TMOType.Linear).get? 0 =
      some (RGB8.mk 64 255 0) := by
  refine ⟨by simp, ?_⟩
  rw [C8_resolve_tonemap_mul256_saturate id TMOType.Linear ⟨[⟨⟨1/2, 2, -1⟩, 2⟩]⟩ 0 (by simp)]
  with_unfolding_all rfl

/-- Boolean xor is false exactly on equal arguments. -/
theorem bxor_eq_false {a b : Bool} (h : (a ^^ b) = false) : a = b := by
  cases a <;> cases b <;> simp_all

/-- Masking with `2^k - 1` is reduction modulo `2^k`. -/
theorem land_mask (a k : ℕ) : a &&& (2^k - 1) = a % 2^k := by
  apply Nat.eq_of_testBit_eq
  intro j
  simp only [Nat.testBit_and, Nat.testBit_two_pow_sub_one, Nat.testBit_mod_two_pow]
  cases Nat.decLt j k with
  | isTrue h => simp [h]
  | isFalse h => simp [h]

/-- Xor commutes with reduction modulo a power of two. -/
theorem xor_mod_two_pow (a b k : ℕ) : (a ^^^ b) % 2^k = (a % 2^k) ^^^ (b % 2^k) := by
  apply Nat.eq_of_testBit_eq
  intro j
  simp only [Nat.testBit_mod_two_pow, Nat.testBit_xor]
  cases Nat.decLt j k with
  | isTrue h => simp [h]
  | isFalse h => simp [h]

/-- The top bit of a value strictly between consecutive powers of two is set. -/
theorem testBit_of_pow_le_of_lt {x k : ℕ} (h1 : 2^k ≤ x) (h2 : x < 2^(k+1)) :
    x.testBit k = true := by
  rw [Nat.testBit_to_div_mod]
  have hdiv : x / 2^k = 1 := by
    apply Nat.div_eq_of_lt_le
    · simpa using h1
    · simpa [Nat.pow_succ, Nat.mul_comm] using h2
  simp [hdiv]

/-- A nonzero value has its top bit (at `size - 1`) set. -/
theorem testBit_size_sub_one {x : ℕ} (hx : x ≠ 0) : x.testBit (x.size - 1) = true := by
  have hpos : 0 < x.size := Nat.size_pos.mpr (Nat.pos_of_ne_zero hx)
  have h1 : 2^(x.size - 1) ≤ x := Nat.lt_size.mp (by omega)
  have h2 : x < 2^(x.size - 1 + 1) := by
    have := Nat.lt_size_self x
    have heq : x.size - 1 + 1 = x.size := by omega
    rw [heq]
    exact this
  exact testBit_of_pow_le_of_lt h1 h2

/-- The map `x ↦ x ^^^ (x >>> s)` is injective for positive shifts. -/
theorem xorshift_inj {s : ℕ} (hs : 1 ≤ s) {x y : ℕ}
    (h : x ^^^ (x >>> s) = y ^^^ (y >>> s)) : x = y := by
  by_contra hne
  have hD : x ^^^ y ≠ 0 := fun h0 => hne (Nat.eq_of_testBit_eq (fun j => by
    have := congrArg (fun z => z.testBit j) h0
    simp only [Nat.testBit_xor, Nat.zero_testBit] at this
    exact bxor_eq_false this))
  set D := x ^^^ y with hDdef
  set j := D.size - 1 with hjdef
  have hjtop : D.testBit j = true := testBit_size_sub_one hD
  have hjmax : ∀ m, j < m → D.testBit m = false := by
    intro m hm
    apply Nat.testBit_lt_two_pow
    calc D < 2^D.size := Nat.lt_size_self D
    _ ≤ 2^m := Nat.pow_le_pow_right (by omega) (by omega)
  have hxyj : x.testBit j ≠ y.testBit j := by
    intro hEq
    have : D.testBit j = false := by
      simp [hDdef, Nat.testBit_xor, hEq]
    rw [this] at hjtop
    exact Bool.false_ne_true hjtop
  have hxys : x.testBit (j + s) = y.testBit (j + s) := by
    have : D.testBit (j + s) = false := hjmax _ (by omega)
    simp only [hDdef, Nat.testBit_xor] at this
    exact bxor_eq_false this
  have hcongr := congrArg (fun z => z.testBit j) h
  simp only [Nat.testBit_xor, Nat.testBit_shiftRight] at hcongr
  rw [Nat.add_comm s j] at hcongr
  rw [hxys] at hcongr
  have : x.testBit j = y.testBit j := by
    cases hxb : x.testBit j <;> cases hyb : y.testBit j <;>
      simp [hxb, hyb] at hcongr ⊢ <;> simp_all
  exact hxyj this

/-- Xor with a constant respects the low `k` bits. -/
theorem mcongr_xor {k : ℕ} (c : ℕ) {a b : ℕ} (h : a % 2^k = b % 2^k) :
    (a ^^^ c) % 2^k = (b ^^^ c) % 2^k := by
  rw [xor_mod_two_pow, xor_mod_two_pow, h]

/-- Wrapping `u32` multiplication respects the low `k ≤ 32` bits. -/
theorem mcongr_mulmod {k : ℕ} (m : ℕ) (hk : k ≤ 32) {a b : ℕ} (h : a % 2^k = b % 2^k) :
    ((a * m) % 2^32) % 2^k = ((b * m) % 2^32) % 2^k := by
  have hdvd : (2:ℕ)^k ∣ 2^32 := pow_dvd_pow 2 hk
  rw [Nat.mod_mod_of_dvd _ hdvd, Nat.mod_mod_of_dvd _ hdvd, Nat.mul_mod, h, ← Nat.mul_mod]

/-- The masked xor-shift respects the low `k` bits. -/
theorem mcongr_maskshift {k : ℕ} (s : ℕ) {w a b : ℕ} (hw : w = 2^k - 1)
    (h : a % 2^k = b % 2^k) :
    (a ^^^ ((a &&& w) >>> s)) % 2^k = (b ^^^ ((b &&& w) >>> s)) % 2^k := by
  subst hw
  rw [land_mask, land_mask, xor_mod_two_pow, xor_mod_two_pow, h]

/-- The closing mask-and-shift of the hash body is a function of the low `k`
bits alone. -/
theorem mstep_final {k : ℕ} {w a b : ℕ} (hw : w = 2^k - 1) (h : a % 2^k = b % 2^k) :
    (a &&& w) ^^^ ((a &&& w) >>> 5) = (b &&& w) ^^^ ((b &&& w) >>> 5) := by
  subst hw
  rw [land_mask, land_mask, h]

/-- The hash body depends only on the low `k` bits of its input. -/
theorem permStep_mod_congr {k seed w : ℕ} (hw : w = 2^k - 1) (hk : k ≤ 32)
    {a b : ℕ} (h : a % 2^k = b % 2^k) : permStep seed w a = permStep seed w b := by
  unfold permStep
  exact mstep_final hw (mcongr_mulmod _ hk (mcongr_maskshift _ hw (mcongr_mulmod _ hk
    (mcongr_maskshift _ hw (mcongr_mulmod _ hk (mcongr_maskshift _ hw (mcongr_mulmod _ hk
    (mcongr_mulmod _ hk (mcongr_maskshift _ hw (mcongr_xor _ (mcongr_mulmod _ hk
    (mcongr_xor _ (mcongr_maskshift _ hw (mcongr_xor _ (mcongr_mulmod _ hk
    (mcongr_xor _ h))))))))))))))))

/-- The closing mask-and-shift keeps values below `2^k`. -/
theorem and_mask_xor_shift_lt {k z : ℕ} :
    (z &&& (2^k - 1)) ^^^ ((z &&& (2^k - 1)) >>> 5) < 2^k := by
  have hpos : 0 < (2:ℕ)^k := Nat.pos_pow_of_pos k (by omega)
  have hu : z &&& (2^k - 1) < 2^k := lt_of_le_of_lt Nat.and_le_right (by omega)
  refine Nat.xor_lt_two_pow hu (lt_of_le_of_lt ?_ hu)
  rw [Nat.shiftRight_eq_div_pow]
  exact Nat.div_le_self _ _

/-- The hash body lands in `[0, 2^k)`. -/
theorem permStep_lt {k seed w : ℕ} (hw : w = 2^k - 1) (i : ℕ) :
    permStep seed w i < 2^k := by
  subst hw
  exact and_mask_xor_shift_lt

/-- Backward direction of `mcongr_xor`. -/
theorem minj_xor {k : ℕ} (c : ℕ) {a b : ℕ} (h : (a ^^^ c) % 2^k = (b ^^^ c) % 2^k) :
    a % 2^k = b % 2^k := by
  have h2 := mcongr_xor c h
  simpa [Nat.xor_assoc] using h2

/-- Backward direction of `mcongr_mulmod` for odd multipliers. -/
theorem minj_mulmod {k m : ℕ} (hk : k ≤ 32) (hm : m % 2 = 1) {a b : ℕ}
    (h : ((a * m) % 2^32) % 2^k = ((b * m) % 2^32) % 2^k) : a % 2^k = b % 2^k := by
  have hdvd : (2:ℕ)^k ∣ 2^32 := pow_dvd_pow 2 hk
  rw [Nat.mod_mod_of_dvd _ hdvd, Nat.mod_mod_of_dvd _ hdvd] at h
  have hgcd : Nat.gcd (2^k) m = 1 := by
    have h2 : Nat.Coprime 2 m := by
      rw [Nat.coprime_two_left]
      exact Nat.odd_iff.mpr hm
    exact Nat.Coprime.pow_left k h2
  exact Nat.ModEq.cancel_right_of_coprime hgcd h

/-- Backward direction of `mcongr_maskshift`. -/
theorem minj_maskshift {k s : ℕ} (hs : 1 ≤ s) {w a b : ℕ} (hw : w = 2^k - 1)
    (h : (a ^^^ ((a &&& w) >>> s)) % 2^k = (b ^^^ ((b &&& w) >>> s)) % 2^k) :
    a % 2^k = b % 2^k := by
  subst hw
  have hpos : 0 < (2:ℕ)^k := Nat.pos_pow_of_pos k (by omega)
  rw [land_mask, land_mask, xor_mod_two_pow, xor_mod_two_pow] at h
  have ha : ((a % 2^k) >>> s) % 2^k = (a % 2^k) >>> s := by
    apply Nat.mod_eq_of_lt
    calc (a % 2^k) >>> s ≤ a % 2^k := by
          rw [Nat.shiftRight_eq_div_pow]; exact Nat.div_le_self _ _
    _ < 2^k := Nat.mod_lt _ hpos
  have hb : ((b % 2^k) >>> s) % 2^k = (b % 2^k) >>> s := by
    apply Nat.mod_eq_of_lt
    calc (b % 2^k) >>> s ≤ b % 2^k := by
          rw [Nat.shiftRight_eq_div_pow]; exact Nat.div_le_self _ _
    _ < 2^k := Nat.mod_lt _ hpos
  rw [ha, hb] at h
  exact xorshift_inj hs h

/-- Backward direction of `mstep_final`. -/
theorem minj_final {k : ℕ} {w a b : ℕ} (hw : w = 2^k - 1)
    (h : (a &&& w) ^^^ ((a &&& w) >>> 5) = (b &&& w) ^^^ ((b &&& w) >>> 5)) :
    a % 2^k = b % 2^k := by
  subst hw
  rw [land_mask, land_mask] at h
  exact xorshift_inj (by omega) h

/-- The hash body is injective on `[0, 2^k)`. -/
theorem permStep_inj {k seed w : ℕ} (hw : w = 2^k - 1) (hk : k ≤ 32)
    {a b : ℕ} (ha : a < 2^k) (hb : b < 2^k)
    (h : permStep seed w a = permStep seed w b) : a = b := by
  unfold permStep at h
  have hodd9 : (1 ||| (seed >>> 27)) % 2 = 1 := by
    rw [Nat.mod_two_eq_one_iff_testBit_zero]
    simp [Nat.testBit_or]
  have hmm : a % 2^k = b % 2^k :=
    minj_xor _ (minj_mulmod hk (by norm_num) (minj_xor _ (minj_maskshift (by omega) hw
      (minj_xor _ (minj_mulmod hk (by norm_num) (minj_xor _ (minj_maskshift (by omega) hw
      (minj_mulmod hk hodd9 (minj_mulmod hk (by norm_num) (minj_maskshift (by omega) hw
      (minj_mulmod hk (by norm_num) (minj_maskshift (by omega) hw (minj_mulmod hk (by norm_num)
      (minj_maskshift (by omega) hw (minj_mulmod hk (by norm_num)
      (minj_final hw h))))))))))))))))
  rw [Nat.mod_eq_of_lt ha, Nat.mod_eq_of_lt hb] at hmm
  exact hmm

/-- One or-shift stage widens the window of smeared bits from `c` to `2c`. -/
theorem orshift_smear {x y c : ℕ}
    (hy : ∀ j, (y.testBit j = true ↔ ∃ d, d < c ∧ x.testBit (j + d) = true)) :
    ∀ j, ((y ||| y >>> c).testBit j = true ↔ ∃ d, d < 2*c ∧ x.testBit (j + d) = true) := by
  intro j
  rw [Nat.testBit_or, Bool.or_eq_true, Nat.testBit_shiftRight]
  constructor
  · rintro (h | h)
    · obtain ⟨d, hd, hbit⟩ := (hy j).mp h
      exact ⟨d, by omega, hbit⟩
    · obtain ⟨d, hd, hbit⟩ := (hy (c + j)).mp h
      refine ⟨c + d, by omega, ?_⟩
      rwa [show j + (c + d) = c + j + d by omega]
  · rintro ⟨d, hd, hbit⟩
    by_cases hdc : d < c
    · exact Or.inl ((hy j).mpr ⟨d, hdc, hbit⟩)
    · refine Or.inr ((hy (c + j)).mpr ⟨d - c, by omega, ?_⟩)
      rwa [show c + j + (d - c) = j + d by omega]

/-- For `u32` inputs the bit smear produces exactly the mask
`2^(size (n-1)) - 1`. -/
theorem wMask_eq_two_pow_sub_one {n : ℕ} (hn : n - 1 < 2^32) :
    wMask n = 2^((n - 1).size) - 1 := by
  set x := n - 1 with hxdef
  have h1 : ∀ j, (x.testBit j = true ↔ ∃ d, d < 1 ∧ x.testBit (j + d) = true) := by
    intro j
    constructor
    · intro h
      exact ⟨0, by omega, by simpa using h⟩
    · rintro ⟨d, hd, h⟩
      have hd0 : d = 0 := by omega
      subst hd0
      simpa using h
  have h2 := orshift_smear h1
  have h4 := orshift_smear h2
  have h8 := orshift_smear h4
  have h16 := orshift_smear h8
  have h32 := orshift_smear h16
  apply Nat.eq_of_testBit_eq
  intro j
  have hiff : ((wMask n).testBit j = true ↔ ∃ d, d < 2*(2*(2*(2*(2*1)))) ∧
      x.testBit (j + d) = true) := h32 j
  rw [Nat.testBit_two_pow_sub_one]
  by_cases hj : j < x.size
  · have hx0 : x ≠ 0 := by
      intro h0
      rw [h0] at hj
      simp [Nat.size_zero] at hj
    have hsle : x.size ≤ 32 := Nat.size_le.mpr hn
    have htop : x.testBit (x.size - 1) = true := testBit_size_sub_one hx0
    have : (wMask n).testBit j = true := by
      refine hiff.mpr ⟨x.size - 1 - j, by omega, ?_⟩
      rwa [show j + (x.size - 1 - j) = x.size - 1 by omega]
    rw [this]
    simp [hj]
  · have : ¬ (wMask n).testBit j = true := by
      intro h
      obtain ⟨d, _, hbit⟩ := hiff.mp h
      have hge : 2^(j + d) ≤ x := Nat.testBit_implies_ge hbit
      have : j + d < x.size := Nat.lt_size.mpr hge
      omega
    simp only [Bool.not_eq_true] at this
    rw [this]
    simp [hj]

/-- Iterates of the hash body stay in `[0, 2^k)` after the first step. -/
theorem permStep_iterate_lt {k seed w : ℕ} (hw : w = 2^k - 1) {m : ℕ} (hm : 1 ≤ m)
    (x : ℕ) : (fun i => permStep seed w i)^[m] x < 2^k := by
  obtain ⟨m', rfl⟩ : ∃ m', m = m' + 1 := ⟨m - 1, by omega⟩
  rw [Function.iterate_succ_apply']
  exact permStep_lt hw _

/-- Canceling equal-length iterate prefixes using injectivity of the body. -/
theorem permStep_iterate_cancel {k seed w : ℕ} (hw : w = 2^k - 1) (hk : k ≤ 32)
    {u v : ℕ} (hu : u < 2^k) (hv : v < 2^k) :
    ∀ c, (fun i => permStep seed w i)^[c] u = (fun i => permStep seed w i)^[c] v → u = v := by
  intro c
  induction c with
  | zero => exact fun h => h
  | succ c ih =>
    intro h
    rw [Function.iterate_succ_apply', Function.iterate_succ_apply'] at h
    have hcu : (fun i => permStep seed w i)^[c] u < 2^k := by
      cases c with
      | zero => exact hu
      | succ c => exact permStep_iterate_lt hw (by omega) u
    have hcv : (fun i => permStep seed w i)^[c] v < 2^k := by
      cases c with
      | zero => exact hv
      | succ c => exact permStep_iterate_lt hw (by omega) v
    exact ih (permStep_inj hw hk hcu hcv h)

/-- Every start value below `2^k` returns to itself within `2^k` body
iterations. -/
theorem permStep_exists_cycle {k seed w : ℕ} (hw : w = 2^k - 1) (hk : k ≤ 32)
    {x : ℕ} (hx : x < 2^k) :
    ∃ L, 1 ≤ L ∧ L ≤ 2^k ∧ (fun i => permStep seed w i)^[L] x = x := by
  have hmaps : ∀ m ∈ Finset.range (2^k + 1),
      (fun i => permStep seed w i)^[m] x ∈ Finset.range (2^k) := by
    intro m _
    rw [Finset.mem_range]
    cases m with
    | zero => exact hx
    | succ m => exact permStep_iterate_lt hw (by omega) x
  obtain ⟨a, ha, b, hb, hne, heq⟩ :=
    Finset.exists_ne_map_eq_of_card_lt_of_maps_to (by simp) hmaps
  rw [Finset.mem_range] at ha hb
  rcases Nat.lt_or_ge a b with hab | hab
  · refine ⟨b - a, by omega, by omega, ?_⟩
    have : (fun i => permStep seed w i)^[a] ((fun i => permStep seed w i)^[b - a] x) =
        (fun i => permStep seed w i)^[a] x := by
      rw [← Function.iterate_add_apply]
      rw [show a + (b - a) = b by omega]
      exact heq.symm
    exact permStep_iterate_cancel hw hk (by
      cases Nat.eq_zero_or_pos (b - a) with
      | inl h0 => omega
      | inr hpos => exact permStep_iterate_lt hw hpos x) hx a this
  · have hba : b < a := by omega
    refine ⟨a - b, by omega, by omega, ?_⟩
    have : (fun i => permStep seed w i)^[b] ((fun i => permStep seed w i)^[a - b] x) =
        (fun i => permStep seed w i)^[b] x := by
      rw [← Function.iterate_add_apply]
      rw [show b + (a - b) = a by omega]
      exact heq
    exact permStep_iterate_cancel hw hk (by
      cases Nat.eq_zero_or_pos (a - b) with
      | inl h0 => omega
      | inr hpos => exact permStep_iterate_lt hw hpos x) hx b this

/-- The cycle walk succeeds as soon as some iterate within the fuel drops
below `n`. -/
theorem permWalk_eq_some {seed w n : ℕ} :
    ∀ fuel i m, 1 ≤ m → m ≤ fuel →
      (fun z => permStep seed w z)^[m] i < n →
      ∃ v, permWalk seed w n fuel i = some v ∧ v < n := by
  intro fuel
  induction fuel with
  | zero => intro i m hm1 hm2 _; omega
  | succ fuel ih =>
    intro i m hm1 hm2 hlt
    by_cases h1 : permStep seed w i < n
    · exact ⟨permStep seed w i, by simp [permWalk, h1], h1⟩
    · have hm2' : 2 ≤ m := by
        by_contra hc
        have hm : m = 1 := by omega
        subst hm
        simp only [Function.iterate_one] at hlt
        exact h1 hlt
      have hstep : (fun z => permStep seed w z)^[m] i
          = (fun z => permStep seed w z)^[m-1] (permStep seed w i) := by
        conv_lhs => rw [show m = (m-1)+1 by omega]
        rw [Function.iterate_succ_apply]
      rw [hstep] at hlt
      obtain ⟨v, hv, hvn⟩ := ih (permStep seed w i) (m-1) (by omega) (by omega) hlt
      exact ⟨v, by simp [permWalk, h1, hv], hvn⟩

/-- Characterization of a successful cycle walk: the result is the first
iterate below `n`. -/
theorem permWalk_spec {seed w n : ℕ} :
    ∀ fuel i v, permWalk seed w n fuel i = some v →
      ∃ m, 1 ≤ m ∧ v = (fun z => permStep seed w z)^[m] i ∧ v < n ∧
        ∀ j, 1 ≤ j → j < m → ¬((fun z => permStep seed w z)^[j] i < n) := by
  intro fuel
  induction fuel with
  | zero => intro i v h; simp [permWalk] at h
  | succ fuel ih =>
    intro i v h
    by_cases h1 : permStep seed w i < n
    · have hv : v = permStep seed w i := by
        simp [permWalk, h1] at h
        exact h.symm
      subst hv
      exact ⟨1, le_refl 1, by simp, h1, by omega⟩
    · have h' : permWalk seed w n fuel (permStep seed w i) = some v := by
        simpa [permWalk, h1] using h
      obtain ⟨m, hm1, hvm, hvn, hmin⟩ := ih (permStep seed w i) v h'
      refine ⟨m + 1, by omega, ?_, hvn, ?_⟩
      · rw [Function.iterate_succ_apply]
        exact hvm
      · intro j hj1 hjm
        rcases Nat.eq_or_lt_of_le hj1 with h1j | h1j
        · simpa [← h1j] using h1
        · have : (fun z => permStep seed w z)^[j] i
              = (fun z => permStep seed w z)^[j-1] (permStep seed w i) := by
            conv_lhs => rw [show j = (j-1)+1 by omega]
            rw [Function.iterate_succ_apply]
          rw [this]
          exact hmin (j-1) (by omega) (by omega)

/-- Distinct start values below `n` walk to distinct accepted values. -/
theorem permWalk_inj {k seed w n : ℕ} (hw : w = 2^k - 1) (hk : k ≤ 32)
    (hn : n ≤ 2^k) :
    ∀ fuel1 fuel2 i1 i2 v, i1 < n → i2 < n →
      permWalk seed w n fuel1 i1 = some v → permWalk seed w n fuel2 i2 = some v →
      i1 = i2 := by
  have main : ∀ m1 m2 i1 i2 v, i1 < n → i2 < n → m1 ≤ m2 →
      1 ≤ m1 →
      v = (fun z => permStep seed w z)^[m1] i1 →
      v = (fun z => permStep seed w z)^[m2] i2 →
      (∀ j, 1 ≤ j → j < m2 → ¬((fun z => permStep seed w z)^[j] i2 < n)) →
      v < n → i1 = i2 := by
    intro m1 m2 i1 i2 v hi1 hi2 hm12 hm1 hv1 hv2 hmin2 hvn
    have hsplit : (fun z => permStep seed w z)^[m1] i1
        = (fun z => permStep seed w z)^[m1] ((fun z => permStep seed w z)^[m2 - m1] i2) := by
      rw [← Function.iterate_add_apply]
      rw [show m1 + (m2 - m1) = m2 by omega]
      rw [← hv1, ← hv2]
    have hcan : i1 = (fun z => permStep seed w z)^[m2 - m1] i2 := by
      apply permStep_iterate_cancel hw hk (by omega) ?_ m1 hsplit
      cases Nat.eq_zero_or_pos (m2 - m1) with
      | inl h0 => rw [h0]; simpa using by omega
      | inr hpos => exact permStep_iterate_lt hw hpos i2
    cases Nat.eq_zero_or_pos (m2 - m1) with
    | inl h0 =>
      rw [h0] at hcan
      simpa using hcan
    | inr hpos =>
      exfalso
      apply hmin2 (m2 - m1) hpos (by omega)
      rw [← hcan]
      exact hi1
  intro fuel1 fuel2 i1 i2 v hi1 hi2 h1 h2
  obtain ⟨m1, hm11, hv1, hvn1, hmin1⟩ := permWalk_spec fuel1 i1 v h1
  obtain ⟨m2, hm21, hv2, hvn2, hmin2⟩ := permWalk_spec fuel2 i2 v h2
  rcases Nat.le_total m1 m2 with hle | hle
  · exact main m1 m2 i1 i2 v hi1 hi2 hle hm11 hv1 hv2 hmin2 hvn1
  · exact (main m2 m1 i2 i1 v hi2 hi1 hle hm21 hv2 hv1 hmin1 hvn1).symm

/-- C9 fails as stated: at `index = 3`, `n = 3`, `seed = 0` the hash body has
the fixed point `3` (`permStep 0 w 3 = 3` with `w = wMask 3 = 3`), so the
cycle-walking loop never reaches a value below `n` for any amount of fuel:
the Rust function loops forever.  Termination is only guaranteed for
`index < n`. -/
theorem C9_nontermination_counterexample :
    permutation_element (2^32) 3 3 0 = none := by
  have hstep : permStep 0 (wMask 3) 3 = 3 := by with_unfolding_all rfl
  have hwalk : ∀ fuel, permWalk 0 (wMask 3) 3 fuel 3 = none := by
    intro fuel
    induction fuel with
    | zero => rfl
    | succ fuel ih =>
      rw [show permWalk 0 (wMask 3) 3 (fuel+1) 3
          = if permStep 0 (wMask 3) 3 < 3 then some (permStep 0 (wMask 3) 3)
            else permWalk 0 (wMask 3) 3 fuel (permStep 0 (wMask 3) 3) from rfl]
      rw [hstep]
      simpa using ih
  show (permWalk 0 (wMask 3) 3 (2^32) 3).map (fun i => ((i + 0) % 2^32) % 3) = none
  rw [hwalk]
  rfl

/-- C9 (amended): for every `n ≥ 1` (a `u32`, so `n ≤ 2^32`), every seed and
every starting index below `n`, the cycle-walking loop of
`permutation_element` reaches a value below `n` — within `2^32` iterations,
because the hash body permutes `[0, 2^(size (n-1)))` and the orbit of a start
value below `n` returns to it — and the returned value is strictly below
`n`. -/
theorem C9_perm_element_terminates_below_n (n seed index : ℕ)
    (hn1 : 1 ≤ n) (hn32 : n ≤ 2^32) (hidx : index < n) :
    ∃ v, permutation_element (2^32) index n seed = some v ∧ v < n := by
  have hxlt : n - 1 < 2^32 := by omega
  have hw : wMask n = 2^((n-1).size) - 1 := wMask_eq_two_pow_sub_one hxlt
  have hk : (n-1).size ≤ 32 := Nat.size_le.mpr hxlt
  have hn2k : n ≤ 2^((n-1).size) := by
    have := Nat.lt_size_self (n-1)
    omega
  obtain ⟨L, hL1, hL2, hLcyc⟩ := @permStep_exists_cycle _ seed _ hw hk
    index (lt_of_lt_of_le hidx hn2k)
  have hfuel : L ≤ 2^32 := le_trans hL2 (Nat.pow_le_pow_right (by omega) hk)
  have hLlt : (fun z => permStep seed (wMask n) z)^[L] index < n := by
    rw [hLcyc]
    exact hidx
  obtain ⟨v, hv, hvn⟩ := permWalk_eq_some (2^32) index L hL1 hfuel hLlt
  refine ⟨((v + seed) % 2^32) % n, ?_, Nat.mod_lt _ (by omega)⟩
  show (permWalk seed (wMask n) n (2^32) index).map (fun i => ((i + seed) % 2^32) % n)
    = some (((v + seed) % 2^32) % n)
  rw [hv]
  rfl

/-- Witness for the amended C9 theorem at `n = 3`, `seed = 255552`,
`index = 2`. -/
theorem C9_perm_element_terminates_below_n_witness :
    1 ≤ 3 ∧ 3 ≤ 2^32 ∧ 2 < 3 ∧
      ∃ v, permutation_element (2^32) 2 3 255552 = some v ∧ v < 3 :=
  ⟨by norm_num, by norm_num, by norm_num,
   C9_perm_element_terminates_below_n 3 255552 2 (by norm_num) (by norm_num) (by norm_num)⟩

/-- C6 fails as stated: for `n = 3` and `seed = 2^32 - 1` the final
`(i.wrapping_add(seed)) % n` wraps around `2^32`, collapsing the walk values
`0` and `1` to the same output `0`; the image of `[0, 3)` is `[0, 1]`, not
`[0, 3)`. -/
theorem C6_permutation_counterexample :
    permutation_element (2^32) 0 3 (2^32-1) = some 1 ∧
    permutation_element (2^32) 1 3 (2^32-1) = some 0 ∧
    permutation_element (2^32) 2 3 (2^32-1) = some 0 ∧
    (Finset.range 3).image (fun i => (permutation_element (2^32) i 3 (2^32-1)).getD 0)
      ≠ Finset.range 3 := by
  have e0 : permutation_element (2^32) 0 3 (2^32-1) = some 1 := by with_unfolding_all rfl
  have e1 : permutation_element (2^32) 1 3 (2^32-1) = some 0 := by with_unfolding_all rfl
  have e2 : permutation_element (2^32) 2 3 (2^32-1) = some 0 := by with_unfolding_all rfl
  refine ⟨e0, e1, e2, ?_⟩
  intro h
  have h2 : (2 : ℕ) ∈ (Finset.range 3).image
      (fun i => (permutation_element (2^32) i 3 (2^32-1)).getD 0) := by
    rw [h]
    simp
  rw [Finset.mem_image] at h2
  obtain ⟨i, hi, hv⟩ := h2
  rw [Finset.mem_range] at hi
  interval_cases i
  · rw [e0] at hv; simp at hv
  · rw [e1] at hv; simp at hv
  · rw [e2] at hv; simp at hv

/-- C6 (amended): for every `n` with `1 ≤ n ≤ 4096` and every seed whose
final wrapping add does not wrap (`seed + n ≤ 2^32`), the map
`i ↦ permutation_element(i, n, seed)` restricted to `[0, n)` is a permutation
of `[0, n)`: its image equals `[0, n)` as a set. -/
theorem C6_permutation_element_is_permutation (n seed : ℕ)
    (hn1 : 1 ≤ n) (hn2 : n ≤ 4096) (hwrap : seed + n ≤ 2^32) :
    (Finset.range n).image
      (fun i => (permutation_element (2^32) i n seed).getD 0) = Finset.range n := by
  have hxlt : n - 1 < 2^32 := by
    have : (4096:ℕ) < 2^32 := by norm_num
    omega
  have hw : wMask n = 2^((n-1).size) - 1 := wMask_eq_two_pow_sub_one hxlt
  have hk : (n-1).size ≤ 32 := Nat.size_le.mpr hxlt
  have hn2k : n ≤ 2^((n-1).size) := by
    have := Nat.lt_size_self (n-1)
    omega
  have hterm : ∀ i, i < n → ∃ v, permWalk seed (wMask n) n (2^32) i = some v ∧ v < n := by
    intro i hi
    obtain ⟨L, hL1, hL2, hLcyc⟩ := @permStep_exists_cycle _ seed _ hw hk
      i (lt_of_lt_of_le hi hn2k)
    have hfuel : L ≤ 2^32 := le_trans hL2 (Nat.pow_le_pow_right (by omega) hk)
    exact permWalk_eq_some (2^32) i L hL1 hfuel (by rw [hLcyc]; exact hi)
  have hval : ∀ i, i < n → ∀ v, permWalk seed (wMask n) n (2^32) i = some v →
      (permutation_element (2^32) i n seed).getD 0 = (v + seed) % n ∧ v < n := by
    intro i hi v hv
    have hvn : v < n := by
      obtain ⟨v2, hv2, hvn2⟩ := hterm i hi
      rw [hv] at hv2
      injection hv2 with hv2
      omega
    have hsmall : v + seed < 2^32 := by omega
    constructor
    · show ((permWalk seed (wMask n) n (2^32) i).map
          (fun z => ((z + seed) % 2^32) % n)).getD 0 = (v + seed) % n
      rw [hv]
      simp only [Option.map_some', Option.getD_some]
      rw [Nat.mod_eq_of_lt hsmall]
    · exact hvn
  apply Finset.eq_of_subset_of_card_le
  · intro y hy
    rw [Finset.mem_image] at hy
    obtain ⟨i, hi, hyv⟩ := hy
    rw [Finset.mem_range] at hi
    obtain ⟨v, hv, hvn⟩ := hterm i hi
    obtain ⟨hval1, _⟩ := hval i hi v hv
    rw [Finset.mem_range, ← hyv, hval1]
    exact Nat.mod_lt _ (by omega)
  · have hinj : Set.InjOn (fun i => (permutation_element (2^32) i n seed).getD 0)
        ↑(Finset.range n) := by
      intro i1 hi1 i2 hi2 heq
      rw [Finset.coe_range, Set.mem_Iio] at hi1 hi2
      obtain ⟨v1, hv1, hvn1⟩ := hterm i1 hi1
      obtain ⟨v2, hv2, hvn2⟩ := hterm i2 hi2
      obtain ⟨he1, _⟩ := hval i1 hi1 v1 hv1
      obtain ⟨he2, _⟩ := hval i2 hi2 v2 hv2
      simp only [he1, he2] at heq
      have hmod : v1 ≡ v2 [MOD n] := by
        have : v1 + seed ≡ v2 + seed [MOD n] := heq
        exact Nat.ModEq.add_right_cancel' seed this
      have hv12 : v1 = v2 := by
        have := hmod.eq_of_lt_of_lt hvn1 hvn2
        exact this
      exact permWalk_inj hw hk hn2k (2^32) (2^32) i1 i2 v1 hi1 hi2 hv1 (hv12 ▸ hv2)
    rw [Finset.card_image_of_injOn hinj]

/-- Witness for the amended C6 theorem at `n = 4`, `seed = 9`. -/
theorem C6_permutation_element_is_permutation_witness :
    1 ≤ 4 ∧ 4 ≤ 4096 ∧ 9 + 4 ≤ 2^32 ∧
      (Finset.range 4).image
        (fun i => (permutation_element (2^32) i 4 9).getD 0) = Finset.range 4 :=
  ⟨by norm_num, by norm_num, by norm_num,
   C6_permutation_element_is_permutation 4 9 (by norm_num) (by norm_num) (by norm_num)⟩

/-- Bridge from `getD` with default `0` to `getElem` inside the length. -/
theorem getDn (l : List ℕ) (pos : ℕ) (h : pos < l.length) : l.getD pos 0 = l[pos] := by
  rw [List.getD_eq_getElem?_getD, List.getElem?_eq_getElem h, Option.getD_some]

/-- Two lists of equal length that agree below `f` have equal `f`-prefixes. -/
theorem take_eq_of_agree (l1 l2 : List ℕ) (f : ℕ) (hlen : l1.length = l2.length)
    (h : ∀ pos, pos < f → l1.getD pos 0 = l2.getD pos 0) :
    l1.take f = l2.take f := by
  apply List.ext_getElem (by simp [hlen])
  intro i h1 h2
  have hi1 : i < l1.length := by simp at h1; omega
  have hif : i < f := by simp at h1; omega
  rw [List.getElem_take, List.getElem_take]
  have hh := h i hif
  rwa [getDn l1 i hi1, getDn l2 i (by omega)] at hh

/-- Two lists of equal length that agree from `f` on have equal `f`-suffixes. -/
theorem drop_eq_of_agree (l1 l2 : List ℕ) (f : ℕ) (hlen : l1.length = l2.length)
    (h : ∀ pos, f ≤ pos → l1.getD pos 0 = l2.getD pos 0) :
    l1.drop f = l2.drop f := by
  apply List.ext_getElem (by simp [hlen])
  intro i h1 h2
  rw [List.getElem_drop, List.getElem_drop]
  have hb1 : f + i < l1.length := by simp at h1; omega
  have hh := h (f + i) (by omega)
  rwa [getDn l1 _ hb1, getDn l2 _ (by omega)] at hh

/-- Occurrence count splits along the prefix, slice and suffix decomposition. -/
theorem count_split (l : List ℕ) (f c a : ℕ) :
    l.count a = ((l.take f).count a + (sliceL l f c).count a) + (l.drop (f + c)).count a := by
  conv_lhs => rw [← List.take_append_drop f l]
  rw [List.count_append]
  have h2 : l.drop f = sliceL l f c ++ (l.drop f).drop c := by
    rw [sliceL, List.take_append_drop]
  rw [h2, List.count_append, List.drop_drop]
  omega

/-- If two equal-length lists agree outside `[f, f+c)` and have equal global
counts, the slices `[f, f+c)` have equal counts. -/
theorem slice_count_eq_of_outside_agree (l1 l2 : List ℕ) (f c : ℕ)
    (hlen : l1.length = l2.length)
    (houter : ∀ pos, pos < f ∨ f + c ≤ pos → l1.getD pos 0 = l2.getD pos 0)
    (hcount : ∀ a, l1.count a = l2.count a) :
    ∀ a, (sliceL l1 f c).count a = (sliceL l2 f c).count a := by
  intro a
  have ht : l1.take f = l2.take f :=
    take_eq_of_agree _ _ _ hlen (fun pos hp => houter pos (Or.inl hp))
  have hd : l1.drop (f + c) = l2.drop (f + c) :=
    drop_eq_of_agree _ _ _ hlen (fun pos hp => houter pos (Or.inr hp))
  have e1 := count_split l1 f c a
  have e2 := count_split l2 f c a
  rw [ht, hd, hcount a] at e1
  omega

/-- Length of a slice fully inside the list. -/
theorem sliceL_length (l : List ℕ) (f c : ℕ) (h : f + c ≤ l.length) :
    (sliceL l f c).length = c := by
  simp [sliceL]
  omega

/-- Reading a slice entry reads the underlying list at the offset position. -/
theorem sliceL_getD (l : List ℕ) (f c pos : ℕ) (hp : pos < c) (h : f + c ≤ l.length) :
    (sliceL l f c).getD pos 0 = l.getD (f + pos) 0 := by
  have h1 : pos < (sliceL l f c).length := by rw [sliceL_length l f c h]; exact hp
  rw [getDn _ _ h1, getDn l (f + pos) (by omega)]
  simp only [sliceL, List.getElem_take, List.getElem_drop]

/-- Membership in a slice is existence of an in-range position holding the
value. -/
theorem mem_sliceL (l : List ℕ) (f c p : ℕ) (h : f + c ≤ l.length) :
    p ∈ sliceL l f c ↔ ∃ pos, f ≤ pos ∧ pos < f + c ∧ l.getD pos 0 = p := by
  rw [List.mem_iff_getElem]
  constructor
  · rintro ⟨i, hi, hget⟩
    have hic : i < c := by rw [sliceL_length l f c h] at hi; exact hi
    refine ⟨f + i, by omega, by omega, ?_⟩
    rw [getDn l _ (by omega), ← hget]
    simp only [sliceL, List.getElem_take, List.getElem_drop]
  · rintro ⟨pos, h1, h2, h3⟩
    have hb : pos - f < (sliceL l f c).length := by rw [sliceL_length l f c h]; omega
    refine ⟨pos - f, hb, ?_⟩
    have hx : (sliceL l f c).getD (pos - f) 0 = l.getD pos 0 := by
      rw [sliceL_getD l f c _ (by omega) h]
      congr 1
      omega
    rw [getDn _ _ hb] at hx
    rw [hx, h3]

/-- A slice over `a + b` entries splits into adjacent slices. -/
theorem sliceL_split (l : List ℕ) (f a b : ℕ) :
    sliceL l f (a + b) = sliceL l f a ++ sliceL l (f + a) b := by
  simp only [sliceL]
  rw [List.take_add, List.drop_drop]

/-- Equal-length lists agreeing inside `[f, f+c)` have equal slices there. -/
theorem sliceL_congr (l1 l2 : List ℕ) (f c : ℕ) (hlen : l1.length = l2.length)
    (h : ∀ pos, f ≤ pos → pos < f + c → l1.getD pos 0 = l2.getD pos 0) :
    sliceL l1 f c = sliceL l2 f c := by
  apply List.ext_getElem (by simp [sliceL, hlen])
  intro i h1 h2
  have hi : f + i < l1.length := by simp [sliceL] at h1; omega
  have hic : i < c := by simp [sliceL] at h1; omega
  simp only [sliceL, List.getElem_take, List.getElem_drop]
  rw [← getDn l1 _ hi, ← getDn l2 _ (by omega)]
  exact h (f + i) (by omega) (by omega)

/-- Count bookkeeping of a single in-range `set`. -/
theorem count_set (l : List ℕ) : ∀ (i x a : ℕ), i < l.length →
    (l.set i x).count a + (if l.getD i 0 = a then 1 else 0) =
      l.count a + (if x = a then 1 else 0) := by
  induction l with
  | nil => intro i x a h; simp at h
  | cons b t ih =>
    intro i x a h
    cases i with
    | zero =>
      simp only [List.set, List.getD_cons_zero, List.count_cons, beq_iff_eq]
      split_ifs <;> omega
    | succ i =>
      have hlt : i < t.length := by simp at h; omega
      have hih := ih i x a hlt
      simp only [List.set, List.getD_cons_succ, List.count_cons, beq_iff_eq]
      split_ifs at hih ⊢ <;> omega

/-- Swapping two in-range entries preserves all counts. -/
theorem count_swap (l : List ℕ) (i j a : ℕ) (hi : i < l.length) (hj : j < l.length) :
    ((l.set j (l.getD i 0)).set i (l.getD j 0)).count a = l.count a := by
  have h1 := count_set (l.set j (l.getD i 0)) i (l.getD j 0) a (by simpa using hi)
  have h2 := count_set l j (l.getD i 0) a hj
  have h3 : (l.set j (l.getD i 0)).getD i 0 = l.getD i 0 := by
    by_cases hij : i = j
    · subst hij
      rw [getDn _ _ (by simpa using hi), List.getElem_set_self]
    · rw [getDn _ _ (by simpa using hi), List.getElem_set_ne (by omega), ← getDn l i hi]
  rw [h3] at h1
  split_ifs at h1 h2 <;> omega

/-- Folding a conditionally applied step equals folding over the filter. -/
theorem foldl_if_filter {σ : Type} (p : ℕ → Bool) (f : σ → ℕ → σ) :
    ∀ (l : List ℕ) (st : σ),
      List.foldl (fun s i => if p i then f s i else s) st l = List.foldl f st (l.filter p) := by
  intro l
  induction l with
  | nil => intro st; rfl
  | cons b t ih =>
    intro st
    by_cases hb : p b
    · simp [List.filter_cons, hb, ih]
    · simp [List.filter_cons, hb, ih]

/-- Zipping a list with itself duplicates each entry. -/
theorem zip_self_eq_map {α : Type} (l : List α) : l.zip l = l.map (fun a => (a, a)) := by
  induction l with
  | nil => rfl
  | cons b t ih => simp [ih]

/-- Lists with pointwise equal counts have the same members. -/
theorem mem_iff_of_count_eq {l1 l2 : List ℕ} (h : ∀ a, l1.count a = l2.count a) (p : ℕ) :
    p ∈ l1 ↔ p ∈ l2 := by
  rw [← List.count_pos_iff, ← List.count_pos_iff, h]

/-- `getD` is unchanged by `set` at a different position. -/
theorem getD_set_ne (l : List ℕ) (i pos x : ℕ) (h : i ≠ pos) :
    (l.set i x).getD pos 0 = l.getD pos 0 := by
  simp [List.getD_eq_getElem?_getD, List.getElem?_set_ne h]

/-- The partition loop preserves the length of the index array. -/
theorem partitionLoop_length (cb : ℕ → AABB) (axis : ℕ) (sp : ℚ) :
    ∀ (fuel : ℕ) (prims : List ℕ) (i j : ℤ),
      (BVH.partitionLoop cb axis sp fuel prims i j).1.length = prims.length := by
  intro fuel
  induction fuel with
  | zero => intro prims i j; rfl
  | succ fuel ih =>
    intro prims i j
    simp only [BVH.partitionLoop]
    by_cases h1 : i ≤ j
    · simp only [h1, if_true]
      by_cases h2 : ((cb (prims.getD i.toNat 0)).centroid).nth axis < sp
      · simp only [h2, if_true]
        exact ih prims (i + 1) j
      · simp only [h2, if_false]
        rw [ih]
        simp
    · simp only [h1, if_false]

/-- The partition loop changes no entry outside the pointer range `[i, j]`. -/
theorem partitionLoop_outside (cb : ℕ → AABB) (axis : ℕ) (sp : ℚ) :
    ∀ (fuel : ℕ) (prims : List ℕ) (i j : ℤ), 0 ≤ i →
      ∀ pos : ℕ, ((pos : ℤ) < i ∨ j < (pos : ℤ)) →
        (BVH.partitionLoop cb axis sp fuel prims i j).1.getD pos 0 = prims.getD pos 0 := by
  intro fuel
  induction fuel with
  | zero => intro prims i j _ pos _; rfl
  | succ fuel ih =>
    intro prims i j hi0 pos hpos
    simp only [BVH.partitionLoop]
    by_cases h1 : i ≤ j
    · simp only [h1, if_true]
      by_cases h2 : ((cb (prims.getD i.toNat 0)).centroid).nth axis < sp
      · simp only [h2, if_true]
        exact ih prims (i + 1) j (by omega) pos (by omega)
      · simp only [h2, if_false]
        rw [ih _ i (j - 1) hi0 pos (by omega)]
        have hne1 : i.toNat ≠ pos := by omega
        have hne2 : j.toNat ≠ pos := by omega
        rw [getD_set_ne _ _ _ _ hne1, getD_set_ne _ _ _ _ hne2]
    · simp only [h1, if_false]

/-- The partition loop permutes the index array: every count is preserved. -/
theorem partitionLoop_count (cb : ℕ → AABB) (axis : ℕ) (sp : ℚ) :
    ∀ (fuel : ℕ) (prims : List ℕ) (i j : ℤ), 0 ≤ i → j < (prims.length : ℤ) →
      ∀ a, (BVH.partitionLoop cb axis sp fuel prims i j).1.count a = prims.count a := by
  intro fuel
  induction fuel with
  | zero => intro prims i j _ _ a; rfl
  | succ fuel ih =>
    intro prims i j hi0 hj a
    simp only [BVH.partitionLoop]
    by_cases h1 : i ≤ j
    · simp only [h1, if_true]
      by_cases h2 : ((cb (prims.getD i.toNat 0)).centroid).nth axis < sp
      · simp only [h2, if_true]
        exact ih prims (i + 1) j (by omega) hj a
      · simp only [h2, if_false]
        have hilen : i.toNat < prims.length := by omega
        have hjlen : j.toNat < prims.length := by omega
        rw [ih _ i (j - 1) hi0 (by simp; omega) a]
        exact count_swap prims i.toNat j.toNat a hilen hjlen
    · simp only [h1, if_false]

/-- The partition loop's returned split pointer stays inside `[lo, hi]`. -/
theorem partitionLoop_i_bounds (cb : ℕ → AABB) (axis : ℕ) (sp : ℚ) :
    ∀ (fuel : ℕ) (prims : List ℕ) (i j lo hi : ℤ), lo ≤ i → i ≤ j + 1 → j < hi →
      lo ≤ (BVH.partitionLoop cb axis sp fuel prims i j).2.1 ∧
        (BVH.partitionLoop cb axis sp fuel prims i j).2.1 ≤ hi := by
  intro fuel
  induction fuel with
  | zero =>
    intro prims i j lo hi h1 h2 h3
    simp only [BVH.partitionLoop]
    exact ⟨h1, by omega⟩
  | succ fuel ih =>
    intro prims i j lo hi hlo hij hjhi
    simp only [BVH.partitionLoop]
    by_cases h1 : i ≤ j
    · simp only [h1, if_true]
      by_cases h2 : ((cb (prims.getD i.toNat 0)).centroid).nth axis < sp
      · simp only [h2, if_true]
        exact ih prims (i + 1) j lo hi (by omega) (by omega) hjhi
      · simp only [h2, if_false]
        exact ih _ i (j - 1) lo hi hlo (by omega) (by omega)
    · simp only [h1, if_false]
      exact ⟨hlo, by omega⟩

/-- `partition_primitives` preserves the index-array length. -/
theorem partition_primitives_length (prims : List ℕ) (bbox : AABB)
    (f c : ℕ) (cb : ℕ → AABB) :
    (BVH.partition_primitives prims bbox f c cb).1.length = prims.length :=
  partitionLoop_length _ _ _ _ _ _ _

/-- `partition_primitives` changes no entry outside the slice `[f, f+c)`. -/
theorem partition_primitives_outside (prims : List ℕ) (bbox : AABB)
    (f c : ℕ) (cb : ℕ → AABB) (pos : ℕ) (hpos : pos < f ∨ f + c ≤ pos) :
    (BVH.partition_primitives prims bbox f c cb).1.getD pos 0 = prims.getD pos 0 :=
  partitionLoop_outside _ _ _ _ _ _ _ (by omega) pos (by omega)

/-- `partition_primitives` permutes the index array: counts are preserved. -/
theorem partition_primitives_count (prims : List ℕ) (bbox : AABB)
    (f c : ℕ) (cb : ℕ → AABB) (hrange : f + c ≤ prims.length) (a : ℕ) :
    (BVH.partition_primitives prims bbox f c cb).1.count a = prims.count a :=
  partitionLoop_count _ _ _ _ _ _ _ (by omega) (by omega) a

/-- The split pointer of `partition_primitives` lies in `[f, f+c]`. -/
theorem partition_primitives_i_bounds (prims : List ℕ) (bbox : AABB)
    (f c : ℕ) (cb : ℕ → AABB) :
    (f : ℤ) ≤ (BVH.partition_primitives prims bbox f c cb).2.1 ∧
      (BVH.partition_primitives prims bbox f c cb).2.1 ≤ (f : ℤ) + (c : ℤ) :=
  partitionLoop_i_bounds _ _ _ _ _ _ _ _ _ (by omega) (by omega) (by omega)

/-- `partition_primitives` permutes the slice `[f, f+c)` in place: the slice's
counts are preserved. -/
theorem partition_primitives_slice_count (prims : List ℕ) (bbox : AABB)
    (f c : ℕ) (cb : ℕ → AABB) (hrange : f + c ≤ prims.length) (a : ℕ) :
    (sliceL (BVH.partition_primitives prims bbox f c cb).1 f c).count a =
      (sliceL prims f c).count a :=
  slice_count_eq_of_outside_agree _ _ f c
    (partition_primitives_length prims bbox f c cb)
    (fun pos hp => partition_primitives_outside prims bbox f c cb pos hp)
    (fun b => partition_primitives_count prims bbox f c cb hrange b) a

/-- Box containment is reflexive. -/
theorem AABBsub_refl (a : AABB) : AABBsub a a :=
  ⟨le_refl _, le_refl _, le_refl _, le_refl _, le_refl _, le_refl _⟩

/-- Box containment is transitive. -/
theorem AABBsub_trans {a b c : AABB} (h1 : AABBsub a b) (h2 : AABBsub b c) :
    AABBsub a c := by
  obtain ⟨x1, x2, x3, x4, x5, x6⟩ := h1
  obtain ⟨y1, y2, y3, y4, y5, y6⟩ := h2
  exact ⟨le_trans y1 x1, le_trans y2 x2, le_trans y3 x3,
    le_trans x4 y4, le_trans x5 y5, le_trans x6 y6⟩

/-- A box is contained in its union with another box (left). -/
theorem AABBsub_union_left (a b : AABB) : AABBsub a (a.union b) := by
  simp [AABBsub, AABB.union, Point3.min, Point3.max]

/-- A box is contained in its union with another box (right). -/
theorem AABBsub_union_right (a b : AABB) : AABBsub b (a.union b) := by
  simp [AABBsub, AABB.union, Point3.min, Point3.max]

/-- The union fold of `calculate_bbox` contains its start box and the box of
every listed primitive. -/
theorem foldl_union_contains (bb : ℕ → AABB) :
    ∀ (ps : List ℕ) (acc : AABB),
      AABBsub acc (ps.foldl (fun acc q => acc.union (bb q)) acc) ∧
      ∀ p ∈ ps, AABBsub (bb p) (ps.foldl (fun acc q => acc.union (bb q)) acc) := by
  intro ps
  induction ps with
  | nil => intro acc; exact ⟨AABBsub_refl acc, by simp⟩
  | cons q t ih =>
    intro acc
    simp only [List.foldl_cons]
    obtain ⟨h1, h2⟩ := ih (acc.union (bb q))
    refine ⟨AABBsub_trans (AABBsub_union_left acc (bb q)) h1, ?_⟩
    intro p hp
    rcases List.mem_cons.mp hp with rfl | hp
    · exact AABBsub_trans (AABBsub_union_right acc (bb p)) h1
    · exact h2 p hp

/-- `calculate_bbox` over a slice contains the box of every primitive of the
slice. -/
theorem calculate_bbox_contains (prims : List ℕ) (start c : ℕ) (bb : ℕ → AABB) :
    ∀ p ∈ sliceL prims start c, AABBsub (bb p) (BVH.calculate_bbox prims start c bb) := by
  intro p hp
  unfold BVH.calculate_bbox
  cases hs : (prims.drop start).take c with
  | nil =>
    rw [sliceL, hs] at hp
    simp at hp
  | cons q t =>
    rw [sliceL, hs] at hp
    rcases List.mem_cons.mp hp with rfl | hp2
    · exact (foldl_union_contains bb t (bb p)).1
    · exact (foldl_union_contains bb t (bb q)).2 p hp2

/-- Generic bridge from `getD` to `getElem` inside the length. -/
theorem getD_of_lt {α : Type} (l : List α) (d : α) (pos : ℕ) (h : pos < l.length) :
    l.getD pos d = l[pos] := by
  rw [List.getD_eq_getElem?_getD, List.getElem?_eq_getElem h, Option.getD_some]

/-- Generic: `getD` is unchanged by `set` at a different position. -/
theorem getD_set_ne_g {α : Type} (l : List α) (d : α) (i pos : ℕ) (x : α) (h : i ≠ pos) :
    (l.set i x).getD pos d = l.getD pos d := by
  simp [List.getD_eq_getElem?_getD, List.getElem?_set_ne h]

/-- Generic: `getD` after `set` at the same in-range position is the new
value. -/
theorem getD_set_self_g {α : Type} (l : List α) (d : α) (i : ℕ) (x : α) (h : i < l.length) :
    (l.set i x).getD i d = x := by
  rw [getD_of_lt _ _ _ (by simpa using h), List.getElem_set_self]

/-- Generic: `getD` inside the left part of an append. -/
theorem getD_append_lt {α : Type} (l l2 : List α) (d : α) (r : ℕ) (h : r < l.length) :
    (l ++ l2).getD r d = l.getD r d := by
  rw [getD_of_lt _ _ _ (by simp; omega), getD_of_lt _ _ _ h,
    List.getElem_append_left h]

/-- `getD` at the seam of an append reads the first appended element. -/
theorem getD_append_self {α : Type} (l : List α) (d x : α) (t : List α) :
    (l ++ x :: t).getD l.length d = x := by
  induction l with
  | nil => rfl
  | cons b l2 ih => simpa using ih

/-- `getD` one past the seam of appending two elements reads the second. -/
theorem getD_append_two {α : Type} (l : List α) (d x y : α) :
    (l ++ [x, y]).getD (l.length + 1) d = y := by
  have h : l ++ [x, y] = (l ++ [x]) ++ [y] := by simp
  rw [h]
  have h2 : l.length + 1 = (l ++ [x]).length := by simp
  rw [h2, getD_append_self]

/-- Measure of a pushed stack entry. -/
theorem stackMeasure_cons (e : ℕ × ℕ × ℕ) (sl : List (ℕ × ℕ × ℕ)) :
    stackMeasure (e :: sl) = (2 * e.2.2 - 1) + stackMeasure sl := by
  simp [stackMeasure]

/-- Master invariant of the `BVH::build` work loop: starting from a
well-formed work stack the loop keeps the index array a permutation (lengths,
counts, out-of-slice entries and per-slice counts preserved), only appends to
the node array apart from the stacked nodes themselves, establishes
`SubtreeOK` for every stacked entry, and creates at most `2c - 2` new nodes
per stacked entry over `c` primitives. -/
theorem buildLoop_spec (bb : ℕ → AABB) :
    ∀ (fuel : ℕ) (nodes : List BVHNode) (prims : List ℕ) (sl : List (ℕ × ℕ × ℕ))
      (fnodes : List BVHNode) (fprims : List ℕ),
      StackOK bb nodes prims sl →
      stackMeasure sl ≤ fuel →
      BVH.buildLoop bb fuel nodes prims (sl.map (fun e => e.1)) = (fnodes, fprims) →
      fprims.length = prims.length ∧
      (∀ pos : ℕ, (∀ e ∈ sl, pos < e.2.1 ∨ e.2.1 + e.2.2 ≤ pos) →
        fprims.getD pos 0 = prims.getD pos 0) ∧
      (∀ x, fprims.count x = prims.count x) ∧
      nodes.length ≤ fnodes.length ∧
      (∀ r, r < nodes.length → (∀ e ∈ sl, e.1 ≠ r) →
        fnodes.getD r BVHNode.dummy = nodes.getD r BVHNode.dummy) ∧
      (∀ e ∈ sl, ∀ x, (sliceL fprims e.2.1 e.2.2).count x = (sliceL prims e.2.1 e.2.2).count x) ∧
      (∀ e ∈ sl, SubtreeOK fnodes fprims bb e.1 e.2.1 e.2.2) ∧
      fnodes.length + sl.length ≤ nodes.length + stackMeasure sl := by
  intro fuel
  induction fuel with
  | zero =>
    intro nodes prims sl fnodes fprims hok hfuel heq
    have hsl : sl = [] := by
      cases sl with
      | nil => rfl
      | cons e rest =>
        have h1 : 1 ≤ e.2.2 := (hok.1 e (List.mem_cons_self _ _)).2.2.2.1
        rw [stackMeasure_cons] at hfuel
        omega
    subst hsl
    simp only [BVH.buildLoop] at heq
    injection heq with h1 h2
    subst h1
    subst h2
    exact ⟨rfl, fun pos _ => rfl, fun x => rfl, le_refl _, fun r _ _ => rfl,
      fun e he => absurd he (List.not_mem_nil e),
      fun e he => absurd he (List.not_mem_nil e), by simp [stackMeasure]⟩
  | succ fuel ih =>
    intro nodes prims sl fnodes fprims hok hfuel heq
    cases sl with
    | nil =>
      simp only [BVH.buildLoop, List.map_nil] at heq
      injection heq with h1 h2
      subst h1
      subst h2
      exact ⟨rfl, fun pos _ => rfl, fun x => rfl, le_refl _, fun r _ _ => rfl,
        fun e he => absurd he (List.not_mem_nil e),
        fun e he => absurd he (List.not_mem_nil e), by simp [stackMeasure]⟩
    | cons e rest =>
      obtain ⟨q, f, c⟩ := e
      obtain ⟨hall, hdisj, hne⟩ := hok
      have hhead := hall (q, f, c) (List.mem_cons_self _ _)
      have hq : q < nodes.length := hhead.1
      have hfirst : (nodes.getD q BVHNode.dummy).first_prim = f := hhead.2.1
      have hnum : (nodes.getD q BVHNode.dummy).num_prims = c := hhead.2.2.1
      have hc1 : 1 ≤ c := hhead.2.2.2.1
      have hrange : f + c ≤ prims.length := hhead.2.2.2.2.1
      have hbox : ∀ p ∈ sliceL prims f c,
          AABBsub (bb p) (nodes.getD q BVHNode.dummy).bbox := hhead.2.2.2.2.2
      have hdisjHead : ∀ e' ∈ rest, f + c ≤ e'.2.1 ∨ e'.2.1 + e'.2.2 ≤ f :=
        fun e' he' => (List.pairwise_cons.mp hdisj).1 e' he'
      have hneHead : ∀ e' ∈ rest, q ≠ e'.1 :=
        fun e' he' => (List.pairwise_cons.mp hne).1 e' he'
      have hmeas : stackMeasure ((q, f, c) :: rest) = (2 * c - 1) + stackMeasure rest :=
        stackMeasure_cons _ _
      rw [hmeas] at hfuel
      simp only [List.map_cons] at heq
      by_cases hc2 : c ≤ 2
      · -- leaf: pop the entry and recurse on the rest
        have hred : BVH.buildLoop bb (fuel + 1) nodes prims (q :: rest.map (fun e => e.1)) =
            BVH.buildLoop bb fuel nodes prims (rest.map (fun e => e.1)) := by
          simp only [BVH.buildLoop]
          rw [if_pos (by rw [hnum]; exact hc2)]
        rw [hred] at heq
        have hokR : StackOK bb nodes prims rest :=
          ⟨fun e' he' => hall e' (List.mem_cons_of_mem _ he'),
           List.Pairwise.of_cons hdisj, List.Pairwise.of_cons hne⟩
        have hfuelR : stackMeasure rest ≤ fuel := by omega
        obtain ⟨ia, ib, ic, id1, id2, ig, ie, ih8⟩ :=
          ih nodes prims rest fnodes fprims hokR hfuelR heq
        have hsliceEq : sliceL fprims f c = sliceL prims f c := by
          apply sliceL_congr _ _ _ _ ia
          intro pos h1 h2
          apply ib
          intro e' he'
          rcases hdisjHead e' he' with h3 | h3
          · left; omega
          · right; omega
        have hnodeEq : fnodes.getD q BVHNode.dummy = nodes.getD q BVHNode.dummy :=
          id2 q hq (fun e' he' => (hneHead e' he').symm)
        refine ⟨ia, ?_, ic, id1, ?_, ?_, ?_, ?_⟩
        · intro pos hpos
          exact ib pos (fun e' he' => hpos e' (List.mem_cons_of_mem _ he'))
        · intro r hr hrne
          exact id2 r hr (fun e' he' => hrne e' (List.mem_cons_of_mem _ he'))
        · intro e' he' x
          rcases List.mem_cons.mp he' with rfl | h'
          · show (sliceL fprims f c).count x = (sliceL prims f c).count x
            rw [hsliceEq]
          · exact ig e' h' x
        · intro e' he'
          rcases List.mem_cons.mp he' with rfl | h'
          · show SubtreeOK fnodes fprims bb q f c
            refine SubtreeOK.leaf q f c (lt_of_lt_of_le hq id1) ?_ ?_ hc1 hc2 ?_ ?_
            · rw [hnodeEq]; exact hnum
            · rw [hnodeEq]; exact hfirst
            · rw [ia]; exact hrange
            · intro p hp
              rw [hnodeEq]
              apply hbox
              rwa [hsliceEq] at hp
          · exact ie e' h'
        · rw [hmeas]
          simp only [List.length_cons]
          omega
      · -- split: partition and push the two children
        have hc3 : 3 ≤ c := by omega
        set N := nodes.getD q BVHNode.dummy with hN
        set part := BVH.partition_primitives prims N.bbox N.first_prim N.num_prims bb with hpart
        set prims2 := part.1 with hprims2
        set i0 := part.2.1 with hi0
        set i : ℤ := if i0 - (N.first_prim : ℤ) = 0 ∨ i0 - (N.first_prim : ℤ) = (N.num_prims : ℤ)
            then (N.first_prim : ℤ) + (N.num_prims : ℤ) / 2 else i0 with hi
        set a := (i - (N.first_prim : ℤ)).toNat with ha0
        set L : BVHNode :=
          ⟨BVH.calculate_bbox prims2 N.first_prim (i - (N.first_prim : ℤ)).toNat bb,
           0, N.first_prim, (i - (N.first_prim : ℤ)).toNat⟩ with hL
        set R : BVHNode :=
          ⟨BVH.calculate_bbox prims2 i.toNat ((N.num_prims : ℤ) - (i - (N.first_prim : ℤ))).toNat bb,
           0, i.toNat, ((N.num_prims : ℤ) - (i - (N.first_prim : ℤ))).toNat⟩ with hR
        set nodes3 := (nodes.set q { N with left_node := nodes.length, num_prims := 0 }) ++ [L, R]
          with hnodes3
        have hred : BVH.buildLoop bb (fuel + 1) nodes prims (q :: rest.map (fun e => e.1)) =
            BVH.buildLoop bb fuel nodes3 prims2
              ((nodes.length + 1) :: nodes.length :: rest.map (fun e => e.1)) := by
          simp only [BVH.buildLoop]
          rw [if_neg (by rw [← hN]; omega)]
        rw [hred] at heq
        have hfc : N.first_prim = f := hfirst
        have hnc : N.num_prims = c := hnum
        have hi0b : (f : ℤ) ≤ i0 ∧ i0 ≤ (f : ℤ) + (c : ℤ) := by
          rw [hi0, hpart, hfc, hnc]
          exact partition_primitives_i_bounds prims N.bbox f c bb
        have hib : (f : ℤ) + 1 ≤ i ∧ i ≤ (f : ℤ) + (c : ℤ) - 1 := by
          rw [hi, hfc, hnc]
          by_cases hdeg : i0 - (f : ℤ) = 0 ∨ i0 - (f : ℤ) = (c : ℤ)
          · rw [if_pos hdeg]; omega
          · rw [if_neg hdeg]; omega
        have ha1 : 1 ≤ a := by rw [ha0, hfc]; omega
        have ha2 : a < c := by rw [ha0, hfc]; omega
        have hits : i.toNat = f + a := by rw [ha0, hfc]; omega
        have hLnum : (i - (N.first_prim : ℤ)).toNat = a := by rw [ha0]
        have hRnum : ((N.num_prims : ℤ) - (i - (N.first_prim : ℤ))).toNat = c - a := by
          rw [ha0, hfc, hnc]; omega
        have hp2len : prims2.length = prims.length := by
          rw [hprims2, hpart]
          exact partition_primitives_length _ _ _ _ _
        have hp2out : ∀ pos, pos < f ∨ f + c ≤ pos → prims2.getD pos 0 = prims.getD pos 0 := by
          intro pos hpos
          rw [hprims2, hpart, hfc, hnc]
          exact partition_primitives_outside _ _ _ _ _ pos hpos
        have hp2cnt : ∀ x, prims2.count x = prims.count x := by
          intro x
          rw [hprims2, hpart, hfc, hnc]
          exact partition_primitives_count _ _ _ _ _ hrange x
        have hp2slice : ∀ x, (sliceL prims2 f c).count x = (sliceL prims f c).count x := by
          intro x
          rw [hprims2, hpart, hfc, hnc]
          exact partition_primitives_slice_count _ _ _ _ _ hrange x
        have hrestSlice : ∀ e' ∈ rest, sliceL prims2 e'.2.1 e'.2.2 = sliceL prims e'.2.1 e'.2.2 := by
          intro e' he'
          apply sliceL_congr _ _ _ _ hp2len
          intro pos h1 h2
          apply hp2out
          rcases hdisjHead e' he' with h3 | h3
          · right; omega
          · left; omega
        have hsetlen : (nodes.set q { N with left_node := nodes.length, num_prims := 0 }).length
            = nodes.length := by simp
        have hn3len : nodes3.length = nodes.length + 2 := by
          rw [hnodes3]
          simp
        have hn3q : nodes3.getD q BVHNode.dummy
            = { N with left_node := nodes.length, num_prims := 0 } := by
          rw [hnodes3, getD_append_lt _ _ _ _ (by rw [hsetlen]; exact hq)]
          exact getD_set_self_g _ _ _ _ hq
        have hn3L : nodes3.getD nodes.length BVHNode.dummy = L := by
          rw [hnodes3]
          have h2 := getD_append_self
            (nodes.set q { N with left_node := nodes.length, num_prims := 0 })
            BVHNode.dummy L [R]
          rwa [hsetlen] at h2
        have hn3R : nodes3.getD (nodes.length + 1) BVHNode.dummy = R := by
          rw [hnodes3]
          have h2 := getD_append_two
            (nodes.set q { N with left_node := nodes.length, num_prims := 0 })
            BVHNode.dummy L R
          rwa [hsetlen] at h2
        have hn3rest : ∀ r, r < nodes.length → q ≠ r →
            nodes3.getD r BVHNode.dummy = nodes.getD r BVHNode.dummy := by
          intro r hr hqr
          rw [hnodes3, getD_append_lt _ _ _ _ (by rw [hsetlen]; exact hr),
            getD_set_ne_g _ _ _ _ _ hqr]
        set sl' : List (ℕ × ℕ × ℕ) :=
          (nodes.length + 1, f + a, c - a) :: (nodes.length, f, a) :: rest with hsl'
        have hokS : StackOK bb nodes3 prims2 sl' := by
          refine ⟨?_, ?_, ?_⟩
          · intro e' he'
            rcases List.mem_cons.mp he' with rfl | he2
            · refine ⟨?_, ?_, ?_, ?_, ?_, ?_⟩
              · show nodes.length + 1 < nodes3.length
                omega
              · show (nodes3.getD (nodes.length + 1) BVHNode.dummy).first_prim = f + a
                rw [hn3R]
                show i.toNat = f + a
                exact hits
              · show (nodes3.getD (nodes.length + 1) BVHNode.dummy).num_prims = c - a
                rw [hn3R]
                show ((N.num_prims : ℤ) - (i - (N.first_prim : ℤ))).toNat = c - a
                exact hRnum
              · show 1 ≤ c - a
                omega
              · show (f + a) + (c - a) ≤ prims2.length
                rw [hp2len]
                omega
              · intro p hp
                show AABBsub (bb p) (nodes3.getD (nodes.length + 1) BVHNode.dummy).bbox
                rw [hn3R]
                show AABBsub (bb p)
                  (BVH.calculate_bbox prims2 i.toNat
                    ((N.num_prims : ℤ) - (i - (N.first_prim : ℤ))).toNat bb)
                rw [hits, hRnum]
                exact calculate_bbox_contains prims2 (f + a) (c - a) bb p hp
            · rcases List.mem_cons.mp he2 with rfl | he3
              · refine ⟨?_, ?_, ?_, ?_, ?_, ?_⟩
                · show nodes.length < nodes3.length
                  omega
                · show (nodes3.getD nodes.length BVHNode.dummy).first_prim = f
                  rw [hn3L]
                  show N.first_prim = f
                  exact hfc
                · show (nodes3.getD nodes.length BVHNode.dummy).num_prims = a
                  rw [hn3L]
                · show 1 ≤ a
                  omega
                · show f + a ≤ prims2.length
                  rw [hp2len]
                  omega
                · intro p hp
                  show AABBsub (bb p) (nodes3.getD nodes.length BVHNode.dummy).bbox
                  rw [hn3L]
                  show AABBsub (bb p)
                    (BVH.calculate_bbox prims2 N.first_prim (i - (N.first_prim : ℤ)).toNat bb)
                  rw [hLnum, hfc]
                  exact calculate_bbox_contains prims2 f a bb p hp
              · have h6 := hall e' (List.mem_cons_of_mem _ he3)
                have hq' : e'.1 < nodes.length := h6.1
                have hnodeEq' : nodes3.getD e'.1 BVHNode.dummy = nodes.getD e'.1 BVHNode.dummy :=
                  hn3rest e'.1 hq' (hneHead e' he3)
                refine ⟨by omega, ?_, ?_, h6.2.2.2.1, ?_, ?_⟩
                · rw [hnodeEq']; exact h6.2.1
                · rw [hnodeEq']; exact h6.2.2.1
                · rw [hp2len]; exact h6.2.2.2.2.1
                · intro p hp
                  rw [hnodeEq']
                  apply h6.2.2.2.2.2
                  rwa [hrestSlice e' he3] at hp
          · refine List.pairwise_cons.mpr ⟨?_, List.pairwise_cons.mpr ⟨?_, ?_⟩⟩
            · intro e'' he''
              rcases List.mem_cons.mp he'' with rfl | h3
              · show (f + a) + (c - a) ≤ f ∨ f + a ≤ f + a
                right; omega
              · rcases hdisjHead e'' h3 with h4 | h4
                · show (f + a) + (c - a) ≤ e''.2.1 ∨ e''.2.1 + e''.2.2 ≤ f + a
                  left; omega
                · show (f + a) + (c - a) ≤ e''.2.1 ∨ e''.2.1 + e''.2.2 ≤ f + a
                  right; omega
            · intro e'' he''
              rcases hdisjHead e'' he'' with h4 | h4
              · show f + a ≤ e''.2.1 ∨ e''.2.1 + e''.2.2 ≤ f
                left; omega
              · show f + a ≤ e''.2.1 ∨ e''.2.1 + e''.2.2 ≤ f
                right; omega
            · exact List.Pairwise.of_cons hdisj
          · refine List.pairwise_cons.mpr ⟨?_, List.pairwise_cons.mpr ⟨?_, ?_⟩⟩
            · intro e'' he''
              rcases List.mem_cons.mp he'' with rfl | h3
              · show nodes.length + 1 ≠ nodes.length
                omega
              · have := (hall e'' (List.mem_cons_of_mem _ h3)).1
                show nodes.length + 1 ≠ e''.1
                omega
            · intro e'' he''
              have := (hall e'' (List.mem_cons_of_mem _ he'')).1
              show nodes.length ≠ e''.1
              omega
            · exact List.Pairwise.of_cons hne
        have hm1 : stackMeasure sl' = 2 * (c - a) - 1 + (2 * a - 1 + stackMeasure rest) := by
          rw [hsl']
          have h1 : stackMeasure (((nodes.length + 1, f + a, c - a) : ℕ × ℕ × ℕ) ::
              (nodes.length, f, a) :: rest)
              = 2 * (c - a) - 1 + stackMeasure ((nodes.length, f, a) :: rest) :=
            stackMeasure_cons _ _
          have h2 : stackMeasure (((nodes.length, f, a) : ℕ × ℕ × ℕ) :: rest)
              = 2 * a - 1 + stackMeasure rest := stackMeasure_cons _ _
          rw [h1, h2]
        have hfuelS : stackMeasure sl' ≤ fuel := by
          rw [hm1]
          omega
        obtain ⟨ia, ib, ic, id1, id2, ig, ie, ih8⟩ :=
          ih nodes3 prims2 sl' fnodes fprims hokS hfuelS heq
        have hRmem : ((nodes.length + 1, f + a, c - a) : ℕ × ℕ × ℕ) ∈ sl' := by
          rw [hsl']
          exact List.mem_cons_self _ _
        have hLmem : ((nodes.length, f, a) : ℕ × ℕ × ℕ) ∈ sl' := by
          rw [hsl']
          exact List.mem_cons_of_mem _ (List.mem_cons_self _ _)
        have hsliceSplit : ∀ (l : List ℕ),
            sliceL l f c = sliceL l f a ++ sliceL l (f + a) (c - a) := by
          intro l
          have hca : c = a + (c - a) := by omega
          conv_lhs => rw [hca]
          exact sliceL_split l f a (c - a)
        have hqcount : ∀ x, (sliceL fprims f c).count x = (sliceL prims f c).count x := by
          intro x
          rw [hsliceSplit fprims, hsliceSplit prims, List.count_append, List.count_append]
          have h1 : (sliceL fprims f a).count x = (sliceL prims2 f a).count x := ig _ hLmem x
          have h2 : (sliceL fprims (f + a) (c - a)).count x
              = (sliceL prims2 (f + a) (c - a)).count x := ig _ hRmem x
          have h4 : (sliceL prims2 f c).count x = (sliceL prims f c).count x := hp2slice x
          rw [hsliceSplit prims2, hsliceSplit prims, List.count_append, List.count_append] at h4
          omega
        refine ⟨ia.trans hp2len, ?_, ?_, ?_, ?_, ?_, ?_, ?_⟩
        · intro pos hpos
          have hposq : pos < f ∨ f + c ≤ pos := hpos (q, f, c) (List.mem_cons_self _ _)
          rw [ib pos ?_, hp2out pos hposq]
          intro e'' he''
          rcases List.mem_cons.mp he'' with rfl | he2
          · show pos < f + a ∨ (f + a) + (c - a) ≤ pos
            omega
          · rcases List.mem_cons.mp he2 with rfl | he3
            · show pos < f ∨ f + a ≤ pos
              omega
            · exact hpos e'' (List.mem_cons_of_mem _ he3)
        · intro x
          rw [ic x, hp2cnt x]
        · omega
        · intro r hr hrne
          have h1 : fnodes.getD r BVHNode.dummy = nodes3.getD r BVHNode.dummy := by
            apply id2 r (by omega)
            intro e'' he''
            rcases List.mem_cons.mp he'' with rfl | he2
            · show nodes.length + 1 ≠ r
              omega
            · rcases List.mem_cons.mp he2 with rfl | he3
              · show nodes.length ≠ r
                omega
              · exact hrne e'' (List.mem_cons_of_mem _ he3)
          rw [h1, hn3rest r hr (hrne _ (List.mem_cons_self _ _))]
        · intro e' he' x
          rcases List.mem_cons.mp he' with rfl | he3
          · exact hqcount x
          · have h1 : (sliceL fprims e'.2.1 e'.2.2).count x
                = (sliceL prims2 e'.2.1 e'.2.2).count x :=
              ig e' (List.mem_cons_of_mem _ (List.mem_cons_of_mem _ he3)) x
            rw [h1, hrestSlice e' he3]
        · intro e' he'
          rcases List.mem_cons.mp he' with rfl | he3
          · show SubtreeOK fnodes fprims bb q f c
            have hfq : fnodes.getD q BVHNode.dummy
                = { N with left_node := nodes.length, num_prims := 0 } := by
              rw [← hn3q]
              apply id2 q (by omega)
              intro e'' he''
              rcases List.mem_cons.mp he'' with rfl | he2
              · show nodes.length + 1 ≠ q
                omega
              · rcases List.mem_cons.mp he2 with rfl | he3
                · show nodes.length ≠ q
                  omega
                · exact (hneHead e'' he3).symm
            refine SubtreeOK.node q f c a (by omega) ?_ ?_ ?_ ha1 ha2 ?_
            · rw [hfq]
            · have h1 : SubtreeOK fnodes fprims bb nodes.length f a := ie _ hLmem
              rw [hfq]
              exact h1
            · have h1 : SubtreeOK fnodes fprims bb (nodes.length + 1) (f + a) (c - a) :=
                ie _ hRmem
              rw [hfq]
              exact h1
            · intro p hp
              rw [hfq]
              show AABBsub (bb p) N.bbox
              apply hbox
              exact (mem_iff_of_count_eq hqcount p).mp hp
          · exact ie e' (List.mem_cons_of_mem _ (List.mem_cons_of_mem _ he3))
        · have hlenS : sl'.length = rest.length + 2 := by
            rw [hsl']
            simp
          rw [hmeas]
          simp only [List.length_cons]
          rw [hlenS, hm1, hn3len] at ih8
          omega

/-- C7: for every call to `BVH::build` over `N ≥ 1` primitives the node
vector of the returned tree holds at most `2N - 1` nodes.  The build loop
turns one pending leaf over `c` primitives into at most `2c - 2` additional
nodes, so starting from the single root over `N` primitives at most
`1 + (2N - 2) = 2N - 1` nodes ever exist. -/
theorem C7_bvh_build_node_count_bound (n : ℕ) (bb : ℕ → AABB) (hn : 1 ≤ n) :
    (BVH.build n bb).nodes.length ≤ 2 * n - 1 := by
  have hres : BVH.build n bb = ⟨(BVH.buildLoop bb (2 * n + 1)
      [⟨BVH.calculate_bbox (List.range n) 0 n bb, 0, 0, n⟩] (List.range n) [0]).1,
    (BVH.buildLoop bb (2 * n + 1)
      [⟨BVH.calculate_bbox (List.range n) 0 n bb, 0, 0, n⟩] (List.range n) [0]).2⟩ := by
    simp only [BVH.build]
    rw [if_neg (show ¬ n = 0 by omega)]
  have hok : StackOK bb [⟨BVH.calculate_bbox (List.range n) 0 n bb, 0, 0, n⟩]
      (List.range n) [(0, 0, n)] := by
    refine ⟨?_, List.pairwise_singleton _ _, List.pairwise_singleton _ _⟩
    intro e he
    rcases List.mem_cons.mp he with rfl | h
    · refine ⟨?_, rfl, rfl, ?_, ?_, ?_⟩
      · show (0 : ℕ) < 1
        omega
      · show 1 ≤ n
        exact hn
      · show 0 + n ≤ (List.range n).length
        simp
      · intro p hp
        exact calculate_bbox_contains (List.range n) 0 n bb p hp
    · exact absurd h (List.not_mem_nil e)
  have hm : stackMeasure [((0, 0, n) : ℕ × ℕ × ℕ)] = 2 * n - 1 := by
    simp [stackMeasure]
  have hspec := buildLoop_spec bb (2 * n + 1)
    [⟨BVH.calculate_bbox (List.range n) 0 n bb, 0, 0, n⟩] (List.range n) [(0, 0, n)]
    (BVH.buildLoop bb (2 * n + 1)
      [⟨BVH.calculate_bbox (List.range n) 0 n bb, 0, 0, n⟩] (List.range n) [0]).1
    (BVH.buildLoop bb (2 * n + 1)
      [⟨BVH.calculate_bbox (List.range n) 0 n bb, 0, 0, n⟩] (List.range n) [0]).2
    hok (by rw [hm]; omega) rfl
  have h8 := hspec.2.2.2.2.2.2.2
  rw [hm] at h8
  simp only [List.length_cons, List.length_nil] at h8
  rw [hres]
  show (BVH.buildLoop bb (2 * n + 1)
    [⟨BVH.calculate_bbox (List.range n) 0 n bb, 0, 0, n⟩] (List.range n) [0]).1.length ≤ 2 * n - 1
  omega

/-- Witness for the C7 bound at `n = 3` with unit boxes. -/
theorem C7_bvh_build_node_count_bound_witness :
    1 ≤ 3 ∧ (BVH.build 3 (fun _ => ⟨⟨0, 0, 0⟩, ⟨1, 1, 1⟩⟩)).nodes.length ≤ 2 * 3 - 1 :=
  ⟨by norm_num, C7_bvh_build_node_count_bound 3 (fun _ => ⟨⟨0, 0, 0⟩, ⟨1, 1, 1⟩⟩) (by norm_num)⟩

/-- The branchless `slabMin` is the lattice minimum. -/
theorem slabMin_eq_min (x y : WithTop ℚ) : slabMin x y = Min.min x y := by
  unfold slabMin
  rcases lt_trichotomy x y with h | h | h
  · rw [if_pos h, min_eq_left h.le]
  · subst h
    rw [if_neg (lt_irrefl x), min_self]
  · rw [if_neg (lt_asymm h), min_eq_right h.le]

/-- The branchless `slabMax` is the lattice maximum. -/
theorem slabMax_eq_max (x y : WithTop ℚ) : slabMax x y = Max.max x y := by
  unfold slabMax
  rcases lt_trichotomy x y with h | h | h
  · rw [if_neg (lt_asymm h), max_eq_right h.le]
  · subst h
    rw [if_neg (lt_irrefl x), max_self]
  · rw [if_pos h, max_eq_left h.le]

/-- Folding one slab pair into the running `tmin`. -/
theorem lat_min_max (t1 t2 c : WithTop ℚ) :
    Min.min (Max.max t1 c) (Max.max t2 c) = Max.max c (Min.min t1 t2) := by
  rw [max_comm t1 c, max_comm t2 c, ← max_min_distrib_left]

/-- Folding one slab pair into the running `tmax`. -/
theorem lat_max_min (t1 t2 c : WithTop ℚ) :
    Max.max (Min.min t1 c) (Min.min t2 c) = Min.min c (Max.max t1 t2) := by
  rw [min_comm t1 c, min_comm t2 c, ← min_max_distrib_left]

/-- Closed form of the slab test: entry time is the max of per-axis slab
minima (seeded with 0), exit time the min of per-axis slab maxima (seeded
with `f32::INFINITY`). -/
theorem isect_ray_bbox_eq (o : Point3) (inv : Vec3) (bmin bmax : Point3) :
    isect_ray_bbox o inv bmin bmax =
      decide (Max.max (Max.max (Max.max ((0 : ℚ) : WithTop ℚ)
          (Min.min (((bmin.x - o.x) * inv.x : ℚ) : WithTop ℚ)
                   (((bmax.x - o.x) * inv.x : ℚ) : WithTop ℚ)))
          (Min.min (((bmin.y - o.y) * inv.y : ℚ) : WithTop ℚ)
                   (((bmax.y - o.y) * inv.y : ℚ) : WithTop ℚ)))
          (Min.min (((bmin.z - o.z) * inv.z : ℚ) : WithTop ℚ)
                   (((bmax.z - o.z) * inv.z : ℚ) : WithTop ℚ)) ≤
        Min.min (Min.min (Min.min (⊤ : WithTop ℚ)
          (Max.max (((bmin.x - o.x) * inv.x : ℚ) : WithTop ℚ)
                   (((bmax.x - o.x) * inv.x : ℚ) : WithTop ℚ)))
          (Max.max (((bmin.y - o.y) * inv.y : ℚ) : WithTop ℚ)
                   (((bmax.y - o.y) * inv.y : ℚ) : WithTop ℚ)))
          (Max.max (((bmin.z - o.z) * inv.z : ℚ) : WithTop ℚ)
                   (((bmax.z - o.z) * inv.z : ℚ) : WithTop ℚ))) := by
  unfold isect_ray_bbox
  simp only [slabMin_eq_min, slabMax_eq_max, lat_min_max, lat_max_min]

/-- Per-axis slab interval monotonicity under box containment along one axis
(requires the inner interval to be nonempty). -/
theorem axis_bounds (o inv lA hA2 lB hB2 : ℚ) (h1 : lB ≤ lA) (h2 : lA ≤ hA2) (h3 : hA2 ≤ hB2) :
    Min.min (((lB - o) * inv : ℚ) : WithTop ℚ) (((hB2 - o) * inv : ℚ) : WithTop ℚ) ≤
      Min.min (((lA - o) * inv : ℚ) : WithTop ℚ) (((hA2 - o) * inv : ℚ) : WithTop ℚ) ∧
    Max.max (((lA - o) * inv : ℚ) : WithTop ℚ) (((hA2 - o) * inv : ℚ) : WithTop ℚ) ≤
      Max.max (((lB - o) * inv : ℚ) : WithTop ℚ) (((hB2 - o) * inv : ℚ) : WithTop ℚ) := by
  have key : Min.min ((lB - o) * inv) ((hB2 - o) * inv) ≤
        Min.min ((lA - o) * inv) ((hA2 - o) * inv) ∧
      Max.max ((lA - o) * inv) ((hA2 - o) * inv) ≤
        Max.max ((lB - o) * inv) ((hB2 - o) * inv) := by
    rcases le_total 0 inv with hpos | hneg
    · have e1 : (lB - o) * inv ≤ (lA - o) * inv :=
        mul_le_mul_of_nonneg_right (by linarith) hpos
      have e2 : (lA - o) * inv ≤ (hA2 - o) * inv :=
        mul_le_mul_of_nonneg_right (by linarith) hpos
      have e3 : (hA2 - o) * inv ≤ (hB2 - o) * inv :=
        mul_le_mul_of_nonneg_right (by linarith) hpos
      constructor
      · rw [min_eq_left e2]
        exact le_trans (min_le_left _ _) e1
      · rw [max_eq_right e2]
        exact le_trans e3 (le_max_right _ _)
    · have e1 : (lA - o) * inv ≤ (lB - o) * inv :=
        mul_le_mul_of_nonpos_right (by linarith) hneg
      have e2 : (hA2 - o) * inv ≤ (lA - o) * inv :=
        mul_le_mul_of_nonpos_right (by linarith) hneg
      have e3 : (hB2 - o) * inv ≤ (hA2 - o) * inv :=
        mul_le_mul_of_nonpos_right (by linarith) hneg
      constructor
      · rw [min_eq_right e2]
        exact le_trans (min_le_right _ _) e3
      · rw [max_eq_left e2]
        exact le_trans e1 (le_max_left _ _)
  constructor
  · rw [← WithTop.coe_min, ← WithTop.coe_min, WithTop.coe_le_coe]
    exact key.1
  · rw [← WithTop.coe_max, ← WithTop.coe_max, WithTop.coe_le_coe]
    exact key.2

/-- The slab test is monotone under box containment: if a valid box is hit,
every box containing it is hit as well. -/
theorem isect_mono (o : Point3) (inv : Vec3) (A B : AABB)
    (hsub : AABBsub A B) (hA : AABBvalid A)
    (h : A.intersect o inv = true) : B.intersect o inv = true := by
  unfold AABB.intersect at h ⊢
  rw [isect_ray_bbox_eq] at h ⊢
  rw [decide_eq_true_eq] at h ⊢
  obtain ⟨s1, s2, s3, s4, s5, s6⟩ := hsub
  obtain ⟨v1, v2, v3⟩ := hA
  have hx := axis_bounds o.x inv.x A.min.x A.max.x B.min.x B.max.x s1 v1 s4
  have hy := axis_bounds o.y inv.y A.min.y A.max.y B.min.y B.max.y s2 v2 s5
  have hz := axis_bounds o.z inv.z A.min.z A.max.z B.min.z B.max.z s3 v3 s6
  have h1 := max_le_max (max_le_max (max_le_max (le_refl ((0 : ℚ) : WithTop ℚ)) hx.1) hy.1) hz.1
  have h2 := min_le_min (min_le_min (min_le_min (le_refl (⊤ : WithTop ℚ)) hx.2) hy.2) hz.2
  exact le_trans h1 (le_trans h h2)

/-- A well-formed subtree covers at least one primitive. -/
theorem SubtreeOK_pos {nodes : List BVHNode} {prims : List ℕ} {bb : ℕ → AABB}
    {q f c : ℕ} (h : SubtreeOK nodes prims bb q f c) : 1 ≤ c := by
  cases h with
  | leaf _ _ _ _ _ _ hc1 => exact hc1
  | node _ _ _ a _ _ _ _ ha1 ha2 => omega

/-- A well-formed subtree's slice stays inside the index array. -/
theorem SubtreeOK_range {nodes : List BVHNode} {prims : List ℕ} {bb : ℕ → AABB}
    {q f c : ℕ} (h : SubtreeOK nodes prims bb q f c) : f + c ≤ prims.length := by
  induction h with
  | leaf _ _ _ _ _ _ _ _ hrange => exact hrange
  | node q f c a _ _ _ _ ha1 ha2 _ ihl ihr => omega

/-- The candidate list of a well-formed subtree over `c` primitives is the
same for every fuel of at least `c`. -/
theorem candList_stable (bvh : BVH) (ray : Ray) (inv : Vec3) (bb : ℕ → AABB)
    {q f c : ℕ} (hok : SubtreeOK bvh.nodes bvh.primitive_indices bb q f c) :
    ∀ fuel, c ≤ fuel → candList bvh ray inv fuel q = candList bvh ray inv c q := by
  induction hok with
  | leaf q f c hq hnum hfirst hc1 hc2 hrange hbox =>
    intro fuel hfuel
    obtain ⟨c', rfl⟩ : ∃ c', c = c' + 1 := ⟨c - 1, by omega⟩
    obtain ⟨fuel', rfl⟩ : ∃ g, fuel = g + 1 := ⟨fuel - 1, by omega⟩
    have hleaf : (bvh.nodes.getD q BVHNode.dummy).is_leaf = true := by
      unfold BVHNode.is_leaf
      rw [hnum]
      simp
    simp only [candList, hleaf, if_true]
  | node q f c a hq hnum hleft hright ha1 ha2 hbox ihl ihr =>
    intro fuel hfuel
    obtain ⟨c', rfl⟩ : ∃ c', c = c' + 1 := ⟨c - 1, by omega⟩
    obtain ⟨fuel', rfl⟩ : ∃ g, fuel = g + 1 := ⟨fuel - 1, by omega⟩
    have hleaf : (bvh.nodes.getD q BVHNode.dummy).is_leaf = false := by
      unfold BVHNode.is_leaf
      rw [hnum]
      simp
    by_cases hbx : (bvh.nodes.getD q BVHNode.dummy).bbox.intersect ray.origin inv = true
    · simp only [candList, hbx, hleaf, eq_self_iff_true, if_true, Bool.false_eq_true, if_false]
      rw [ihl fuel' (by omega), ihl c' (by omega), ihr fuel' (by omega), ihr c' (by omega)]
    · simp only [candList, hbx, Bool.false_eq_true, if_false]

/-- Soundness of the candidate list: every candidate of a well-formed subtree
lies in its slice. -/
theorem candList_sound (bvh : BVH) (ray : Ray) (inv : Vec3) (bb : ℕ → AABB)
    {q f c : ℕ} (hok : SubtreeOK bvh.nodes bvh.primitive_indices bb q f c) :
    ∀ p ∈ candList bvh ray inv c q, p ∈ sliceL bvh.primitive_indices f c := by
  induction hok with
  | leaf q f c hq hnum hfirst hc1 hc2 hrange hbox =>
    intro p hp
    obtain ⟨c', rfl⟩ : ∃ c', c = c' + 1 := ⟨c - 1, by omega⟩
    simp only [candList] at hp
    by_cases hbx : (bvh.nodes.getD q BVHNode.dummy).bbox.intersect ray.origin inv = true
    · rw [if_pos hbx] at hp
      have hleaf : (bvh.nodes.getD q BVHNode.dummy).is_leaf = true := by
        unfold BVHNode.is_leaf
        rw [hnum]
        simp
      rw [hleaf] at hp
      simp only [eq_self_iff_true, if_true] at hp
      rw [hfirst, hnum] at hp
      exact hp
    · rw [if_neg hbx] at hp
      exact absurd hp (List.not_mem_nil p)
  | node q f c a hq hnum hleft hright ha1 ha2 hbox ihl ihr =>
    intro p hp
    obtain ⟨c', rfl⟩ : ∃ c', c = c' + 1 := ⟨c - 1, by omega⟩
    simp only [candList] at hp
    by_cases hbx : (bvh.nodes.getD q BVHNode.dummy).bbox.intersect ray.origin inv = true
    · rw [if_pos hbx] at hp
      have hleaf : (bvh.nodes.getD q BVHNode.dummy).is_leaf = false := by
        unfold BVHNode.is_leaf
        rw [hnum]
        simp
      rw [hleaf] at hp
      simp only [Bool.false_eq_true, if_false] at hp
      rw [candList_stable bvh ray inv bb hright c' (by omega),
        candList_stable bvh ray inv bb hleft c' (by omega)] at hp
      have hsplit := sliceL_split bvh.primitive_indices f a (c' + 1 - a)
      rw [show a + (c' + 1 - a) = c' + 1 by omega] at hsplit
      rw [hsplit]
      rcases List.mem_append.mp hp with h1 | h1
      · exact List.mem_append_right _ (ihr p h1)
      · exact List.mem_append_left _ (ihl p h1)
    · rw [if_neg hbx] at hp
      exact absurd hp (List.not_mem_nil p)

/-- Completeness of the candidate list: a slice primitive with a valid box
hit by the ray appears among the candidates of a well-formed subtree. -/
theorem candList_complete (bvh : BVH) (ray : Ray) (inv : Vec3) (bb : ℕ → AABB)
    {q f c : ℕ} (hok : SubtreeOK bvh.nodes bvh.primitive_indices bb q f c) :
    ∀ p ∈ sliceL bvh.primitive_indices f c, AABBvalid (bb p) →
      (bb p).intersect ray.origin inv = true → p ∈ candList bvh ray inv c q := by
  induction hok with
  | leaf q f c hq hnum hfirst hc1 hc2 hrange hbox =>
    intro p hp hval hhit
    obtain ⟨c', rfl⟩ : ∃ c', c = c' + 1 := ⟨c - 1, by omega⟩
    have hboxhit : (bvh.nodes.getD q BVHNode.dummy).bbox.intersect ray.origin inv = true :=
      isect_mono ray.origin inv (bb p) _ (hbox p hp) hval hhit
    have hleaf : (bvh.nodes.getD q BVHNode.dummy).is_leaf = true := by
      unfold BVHNode.is_leaf
      rw [hnum]
      simp
    simp only [candList, hboxhit, hleaf, eq_self_iff_true, if_true, hfirst, hnum]
    exact hp
  | node q f c a hq hnum hleft hright ha1 ha2 hbox ihl ihr =>
    intro p hp hval hhit
    obtain ⟨c', rfl⟩ : ∃ c', c = c' + 1 := ⟨c - 1, by omega⟩
    have hboxhit : (bvh.nodes.getD q BVHNode.dummy).bbox.intersect ray.origin inv = true :=
      isect_mono ray.origin inv (bb p) _ (hbox p hp) hval hhit
    have hleaf : (bvh.nodes.getD q BVHNode.dummy).is_leaf = false := by
      unfold BVHNode.is_leaf
      rw [hnum]
      simp
    simp only [candList, hboxhit, hleaf, eq_self_iff_true, if_true, Bool.false_eq_true, if_false]
    rw [candList_stable bvh ray inv bb hright c' (by omega),
      candList_stable bvh ray inv bb hleft c' (by omega)]
    have hsplit := sliceL_split bvh.primitive_indices f a (c' + 1 - a)
    rw [show a + (c' + 1 - a) = c' + 1 by omega] at hsplit
    rw [hsplit] at hp
    rcases List.mem_append.mp hp with h1 | h1
    · exact List.mem_append_right _ (ihl p h1 hval hhit)
    · exact List.mem_append_left _ (ihr p h1 hval hhit)

/-- One best-hit update never increases the running distance. -/
theorem bestStep_fst_le (isect_fn : ℕ → Ray → Option ℚ) (ray : Ray) (st : ℚ × ℕ) (i : ℕ) :
    (bestStep isect_fn ray st i).1 ≤ st.1 := by
  unfold bestStep
  cases isect_fn i ray with
  | none => exact le_refl _
  | some t =>
    show (if t < st.1 then (t, i) else st).1 ≤ st.1
    by_cases h : t < st.1
    · rw [if_pos h]
      exact le_of_lt h
    · rw [if_neg h]

/-- The best-hit fold never increases the running distance. -/
theorem foldBest_le_init (isect_fn : ℕ → Ray → Option ℚ) (ray : Ray) :
    ∀ (l : List ℕ) (st : ℚ × ℕ),
      (l.foldl (bestStep isect_fn ray) st).1 ≤ st.1 := by
  intro l
  induction l with
  | nil => intro st; exact le_refl _
  | cons b t ih =>
    intro st
    simp only [List.foldl_cons]
    exact le_trans (ih _) (bestStep_fst_le isect_fn ray st b)

/-- The best-hit fold result is at most every listed hit distance. -/
theorem foldBest_le_mem (isect_fn : ℕ → Ray → Option ℚ) (ray : Ray) :
    ∀ (l : List ℕ) (st : ℚ × ℕ) (i : ℕ) (t : ℚ), i ∈ l → isect_fn i ray = some t →
      (l.foldl (bestStep isect_fn ray) st).1 ≤ t := by
  intro l
  induction l with
  | nil => intro st i t hi; exact absurd hi (List.not_mem_nil i)
  | cons b tl ih =>
    intro st i t hi hit
    simp only [List.foldl_cons]
    rcases List.mem_cons.mp hi with rfl | hi2
    · refine le_trans (foldBest_le_init isect_fn ray tl _) ?_
      unfold bestStep
      rw [hit]
      show (if t < st.1 then (t, i) else st).1 ≤ t
      by_cases h : t < st.1
      · rw [if_pos h]
      · rw [if_neg h]
        exact le_of_not_lt h
    · exact ih _ i t hi2 hit

/-- If no listed primitive is hit, the best-hit fold leaves the state
unchanged. -/
theorem foldBest_id (isect_fn : ℕ → Ray → Option ℚ) (ray : Ray) :
    ∀ (l : List ℕ) (st : ℚ × ℕ), (∀ i ∈ l, isect_fn i ray = none) →
      l.foldl (bestStep isect_fn ray) st = st := by
  intro l
  induction l with
  | nil => intro st _; rfl
  | cons b tl ih =>
    intro st hnone
    simp only [List.foldl_cons]
    have hb : bestStep isect_fn ray st b = st := by
      unfold bestStep
      rw [hnone b (List.mem_cons_self _ _)]
    rw [hb]

    exact ih st (fun i hi => hnone i (List.mem_cons_of_mem _ hi))

/-- The best-hit fold either leaves the state unchanged or returns a strictly
closer listed hit. -/
theorem foldBest_realizes (isect_fn : ℕ → Ray → Option ℚ) (ray : Ray) :
    ∀ (l : List ℕ) (st : ℚ × ℕ),
      l.foldl (bestStep isect_fn ray) st = st ∨
      (∃ i ∈ l, isect_fn i ray = some (l.foldl (bestStep isect_fn ray) st).1 ∧
        (l.foldl (bestStep isect_fn ray) st).2 = i ∧
        (l.foldl (bestStep isect_fn ray) st).1 < st.1) := by
  intro l
  induction l with
  | nil => intro st; exact Or.inl rfl
  | cons b tl ih =>
    intro st
    simp only [List.foldl_cons]
    rcases ih (bestStep isect_fn ray st b) with h | ⟨i, hi, h1, h2, h3⟩
    · rw [h]
      cases hb : isect_fn b ray with
      | none =>
        have hbs : bestStep isect_fn ray st b = st := by
          unfold bestStep
          rw [hb]
        rw [hbs]
        exact Or.inl rfl
      | some t =>
        by_cases hlt : t < st.1
        · have hbs : bestStep isect_fn ray st b = (t, b) := by
            unfold bestStep
            rw [hb]
            show (if t < st.1 then (t, b) else st) = (t, b)
            rw [if_pos hlt]
          rw [hbs]
          exact Or.inr ⟨b, List.mem_cons_self _ _, by rw [hb], rfl, hlt⟩
        · have hbs : bestStep isect_fn ray st b = st := by
            unfold bestStep
            rw [hb]
            show (if t < st.1 then (t, b) else st) = st
            rw [if_neg hlt]
          rw [hbs]
          exact Or.inl rfl
    · exact Or.inr ⟨i, List.mem_cons_of_mem _ hi, h1, h2,
        lt_of_lt_of_le h3 (bestStep_fst_le isect_fn ray st b)⟩

/-- The traversal loop over a stack of well-formed subtrees folds the
best-hit update over the concatenated candidate lists, top of stack first,
right child before left child. -/
theorem intersectLoop_eq (bvh : BVH) (ray : Ray) (inv : Vec3) (bb : ℕ → AABB)
    (isect_fn : ℕ → Ray → Option ℚ) :
    ∀ (fuel : ℕ) (sl : List (ℕ × ℕ × ℕ)) (st : ℚ × ℕ),
      (∀ e ∈ sl, SubtreeOK bvh.nodes bvh.primitive_indices bb e.1 e.2.1 e.2.2) →
      stackMeasure sl ≤ fuel →
      BVH.intersectLoop bvh ray inv isect_fn fuel (sl.map (fun e => e.1)) st =
        (sl.map (fun e => candList bvh ray inv e.2.2 e.1)).foldl
          (fun s l => l.foldl (bestStep isect_fn ray) s) st := by
  intro fuel
  induction fuel with
  | zero =>
    intro sl st hok hfuel
    have hsl : sl = [] := by
      cases sl with
      | nil => rfl
      | cons e rest =>
        have h1 : 1 ≤ e.2.2 := SubtreeOK_pos (hok e (List.mem_cons_self _ _))
        rw [stackMeasure_cons] at hfuel
        omega
    subst hsl
    rfl
  | succ fuel ih =>
    intro sl st hok hfuel
    cases sl with
    | nil => rfl
    | cons e rest =>
      obtain ⟨q, f, c⟩ := e
      have hhead : SubtreeOK bvh.nodes bvh.primitive_indices bb q f c :=
        hok (q, f, c) (List.mem_cons_self _ _)
      have hc1 : 1 ≤ c := SubtreeOK_pos hhead
      obtain ⟨c', rfl⟩ : ∃ c', c = c' + 1 := ⟨c - 1, by omega⟩
      have hmeas : stackMeasure (((q, f, c' + 1) : ℕ × ℕ × ℕ) :: rest)
          = (2 * (c' + 1) - 1) + stackMeasure rest := stackMeasure_cons _ _
      rw [hmeas] at hfuel
      simp only [List.map_cons, List.foldl_cons]
      by_cases hbx : (bvh.nodes.getD q BVHNode.dummy).bbox.intersect ray.origin inv = true
      · cases hhead with
        | leaf _ _ _ hq hnum hfirst hc1' hc2 hrange hbox =>
          have hleaf : (bvh.nodes.getD q BVHNode.dummy).is_leaf = true := by
            unfold BVHNode.is_leaf
            rw [hnum]
            simp
          have hcand : candList bvh ray inv (c' + 1) q =
              (bvh.primitive_indices.drop (bvh.nodes.getD q BVHNode.dummy).first_prim).take
                (bvh.nodes.getD q BVHNode.dummy).num_prims := by
            simp only [candList, hbx, hleaf, eq_self_iff_true, if_true]
          show BVH.intersectLoop bvh ray inv isect_fn (fuel + 1) (q :: rest.map (fun e => e.1)) st = _
          simp only [BVH.intersectLoop, hbx, hleaf, eq_self_iff_true, if_true]
          rw [ih rest _ (fun e' he' => hok e' (List.mem_cons_of_mem _ he')) (by omega)]
          rw [hcand]
        | node _ _ _ a hq hnum hleft hright ha1 ha2 hbox =>
          have hleaf : (bvh.nodes.getD q BVHNode.dummy).is_leaf = false := by
            unfold BVHNode.is_leaf
            rw [hnum]
            simp
          have hcand : candList bvh ray inv (c' + 1) q =
              candList bvh ray inv (c' + 1 - a) ((bvh.nodes.getD q BVHNode.dummy).left_node + 1) ++
                candList bvh ray inv a (bvh.nodes.getD q BVHNode.dummy).left_node := by
            simp only [candList, hbx, hleaf, eq_self_iff_true, if_true, Bool.false_eq_true, if_false]
            rw [candList_stable bvh ray inv bb hright c' (by omega),
              candList_stable bvh ray inv bb hleft c' (by omega)]
          show BVH.intersectLoop bvh ray inv isect_fn (fuel + 1) (q :: rest.map (fun e => e.1)) st = _
          simp only [BVH.intersectLoop, hbx, hleaf, eq_self_iff_true, if_true,
            Bool.false_eq_true, if_false]
          have hstack : ((bvh.nodes.getD q BVHNode.dummy).left_node + 1) ::
              (bvh.nodes.getD q BVHNode.dummy).left_node :: rest.map (fun e => e.1) =
              ((((bvh.nodes.getD q BVHNode.dummy).left_node + 1, f + a, c' + 1 - a) :
                ℕ × ℕ × ℕ) :: ((bvh.nodes.getD q BVHNode.dummy).left_node, f, a) :: rest).map
                (fun e => e.1) := by
            simp
          rw [hstack, ih _ st ?_ ?_]
          · simp only [List.map_cons, List.foldl_cons]
            rw [hcand, List.foldl_append]
          · intro e' he'
            rcases List.mem_cons.mp he' with rfl | he2
            · exact hright
            · rcases List.mem_cons.mp he2 with rfl | he3
              · exact hleft
              · exact hok e' (List.mem_cons_of_mem _ he3)
          · have hm2 : stackMeasure
                ((((bvh.nodes.getD q BVHNode.dummy).left_node + 1, f + a, c' + 1 - a) :
                  ℕ × ℕ × ℕ) :: ((bvh.nodes.getD q BVHNode.dummy).left_node, f, a) :: rest)
                = (2 * (c' + 1 - a) - 1) + ((2 * a - 1) + stackMeasure rest) := by
              rw [stackMeasure_cons, stackMeasure_cons]
            rw [hm2]
            omega
      · have hcand : candList bvh ray inv (c' + 1) q = [] := by
          simp only [candList, hbx, Bool.false_eq_true, if_false]
        show BVH.intersectLoop bvh ray inv isect_fn (fuel + 1) (q :: rest.map (fun e => e.1)) st = _
        simp only [BVH.intersectLoop, hbx, Bool.false_eq_true, if_false]
        rw [ih rest _ (fun e' he' => hok e' (List.mem_cons_of_mem _ he')) (by omega)]
        rw [hcand]
        rfl

/-- Enumerating a mapped range pairs each index with its image. -/
theorem enum_map_range {α : Type} (n : ℕ) (g : ℕ → α) :
    ((List.range n).map g).enum = (List.range n).map (fun i => (i, g i)) := by
  rw [List.enum_map, List.enum_eq_zip_range, List.length_range, zip_self_eq_map, List.map_map]
  rfl

/-- The linear intersector folds the best-hit update over exactly the
primitives whose cached box is hit, in index order, from the `1e38`
sentinel. -/
theorem linear_intersect_eq (n : ℕ) (bb : ℕ → AABB) (ray : Ray)
    (isect_fn : ℕ → Ray → Option ℚ) :
    (LinearIntersector.prepare_for_rendering n bb).intersect ray isect_fn =
      (if (((List.range n).filter (fun i => (bb i).intersect ray.origin ray.invDir)).foldl
          (bestStep isect_fn ray) ((10 : ℚ)^38, 0)).1 < (10 : ℚ)^38 then
        some ⟨(((List.range n).filter (fun i => (bb i).intersect ray.origin ray.invDir)).foldl
            (bestStep isect_fn ray) ((10 : ℚ)^38, 0)).1,
          (((List.range n).filter (fun i => (bb i).intersect ray.origin ray.invDir)).foldl
            (bestStep isect_fn ray) ((10 : ℚ)^38, 0)).2⟩
      else none) := by
  have h2 := foldl_if_filter (fun i => (bb i).intersect ray.origin ray.invDir)
    (bestStep isect_fn ray) (List.range n) ((10 : ℚ)^38, 0)
  simp only [] at h2
  unfold LinearIntersector.intersect LinearIntersector.prepare_for_rendering
  simp only [enum_map_range, List.foldl_map]
  rw [h2]

/-- C3 (amended): over primitives with valid boxes, for a per-primitive
intersection function whose hits are below the BVH sentinel `1e30`, only
occur when the primitive's box is hit, and assign distinct distances to
distinct primitives, `BVH::intersect` after `BVH::build` returns exactly the
result of `LinearIntersector::intersect` (same winning id, same distance,
and `none` exactly together). -/
theorem C3_bvh_matches_linear_intersector (n : ℕ) (bb : ℕ → AABB) (ray : Ray)
    (isect_fn : ℕ → Ray → Option ℚ)
    (hn : 1 ≤ n)
    (hvalid : ∀ i, i < n → AABBvalid (bb i))
    (hsmall : ∀ i t, isect_fn i ray = some t → t < (10 : ℚ)^30)
    (hcons : ∀ i t, i < n → isect_fn i ray = some t →
      (bb i).intersect ray.origin ray.invDir = true)
    (huniq : ∀ i j t, i < n → j < n → isect_fn i ray = some t →
      isect_fn j ray = some t → i = j) :
    BVH.intersect (BVH.build n bb) ray isect_fn =
      (LinearIntersector.prepare_for_rendering n bb).intersect ray isect_fn := by
  have hok : StackOK bb [⟨BVH.calculate_bbox (List.range n) 0 n bb, 0, 0, n⟩]
      (List.range n) [(0, 0, n)] := by
    refine ⟨?_, List.pairwise_singleton _ _, List.pairwise_singleton _ _⟩
    intro e he
    rcases List.mem_cons.mp he with rfl | h
    · refine ⟨?_, rfl, rfl, ?_, ?_, ?_⟩
      · show (0 : ℕ) < 1
        omega
      · show 1 ≤ n
        exact hn
      · show 0 + n ≤ (List.range n).length
        simp
      · intro p hp
        exact calculate_bbox_contains (List.range n) 0 n bb p hp
    · exact absurd h (List.not_mem_nil e)
  have hm : stackMeasure [((0, 0, n) : ℕ × ℕ × ℕ)] = 2 * n - 1 := by
    simp [stackMeasure]
  have hkey := buildLoop_spec bb (2 * n + 1)
    [⟨BVH.calculate_bbox (List.range n) 0 n bb, 0, 0, n⟩] (List.range n) [(0, 0, n)]
    (BVH.buildLoop bb (2 * n + 1) [⟨BVH.calculate_bbox (List.range n) 0 n bb, 0, 0, n⟩]
      (List.range n) [0]).1
    (BVH.buildLoop bb (2 * n + 1) [⟨BVH.calculate_bbox (List.range n) 0 n bb, 0, 0, n⟩]
      (List.range n) [0]).2
    hok (by rw [hm]; omega) rfl
  have hres : BVH.build n bb = ⟨(BVH.buildLoop bb (2 * n + 1)
      [⟨BVH.calculate_bbox (List.range n) 0 n bb, 0, 0, n⟩] (List.range n) [0]).1,
    (BVH.buildLoop bb (2 * n + 1)
      [⟨BVH.calculate_bbox (List.range n) 0 n bb, 0, 0, n⟩] (List.range n) [0]).2⟩ := by
    simp only [BVH.build]
    rw [if_neg (show ¬ n = 0 by omega)]
  rw [hres]
  generalize hG : BVH.buildLoop bb (2 * n + 1)
    [⟨BVH.calculate_bbox (List.range n) 0 n bb, 0, 0, n⟩] (List.range n) [0] = X at hkey ⊢
  obtain ⟨fnodes, fprims⟩ := X
  obtain ⟨ia, ib2, ic, id1, id2, ig, ie, ih8⟩ := hkey
  have hsub : SubtreeOK fnodes fprims bb 0 0 n := ie (0, 0, n) (List.mem_cons_self _ _)
  have hplen : fprims.length = n := by simpa using ia
  have hcnt : ∀ x, fprims.count x = (List.range n).count x := ic
  have hmemX : ∀ p, p ∈ fprims ↔ p < n := by
    intro p
    rw [mem_iff_of_count_eq hcnt p, List.mem_range]
  have hsliceX : sliceL fprims 0 n = fprims := by
    rw [sliceL, List.drop_zero]
    exact List.take_of_length_le (by omega)
  have hfl2 : stackMeasure [((0, 0, n) : ℕ × ℕ × ℕ)] ≤
      2 * (fnodes.length + fprims.length) + 1 := by
    rw [hm]
    omega
  have hloop := intersectLoop_eq ⟨fnodes, fprims⟩ ray ray.invDir bb isect_fn
    (2 * (fnodes.length + fprims.length) + 1) [(0, 0, n)] ((10 : ℚ)^30, 0)
    (by
      intro e he
      rcases List.mem_cons.mp he with rfl | h2
      · exact hsub
      · exact absurd h2 (List.not_mem_nil e))
    hfl2
  simp only [List.map_cons, List.map_nil, List.foldl_cons, List.foldl_nil] at hloop
  show BVH.intersect ⟨fnodes, fprims⟩ ray isect_fn = _
  simp only [BVH.intersect]
  rw [hloop, linear_intersect_eq]
  set Lb := candList ⟨fnodes, fprims⟩ ray ray.invDir n 0 with hLbdef
  set Ll := (List.range n).filter (fun i => (bb i).intersect ray.origin ray.invDir) with hLldef
  have hLbmem : ∀ p ∈ Lb, p < n := by
    intro p hp
    have h1 : p ∈ sliceL fprims 0 n :=
      candList_sound ⟨fnodes, fprims⟩ ray ray.invDir bb hsub p hp
    rw [hsliceX] at h1
    exact (hmemX p).mp h1
  have hLbin : ∀ p, p < n → (bb p).intersect ray.origin ray.invDir = true → p ∈ Lb := by
    intro p hpn hhit
    apply candList_complete ⟨fnodes, fprims⟩ ray ray.invDir bb hsub p ?_ (hvalid p hpn) hhit
    rw [hsliceX]
    exact (hmemX p).mpr hpn
  have hLlmem : ∀ p, p ∈ Ll ↔ p < n ∧ (bb p).intersect ray.origin ray.invDir = true := by
    intro p
    rw [hLldef, List.mem_filter, List.mem_range]
  by_cases hP : ∃ i t, i < n ∧ isect_fn i ray = some t
  · obtain ⟨i0, t0, hi0, ht0⟩ := hP
    have hbox0 := hcons i0 t0 hi0 ht0
    have hi0b : i0 ∈ Lb := hLbin i0 hi0 hbox0
    have hi0l : i0 ∈ Ll := (hLlmem i0).mpr ⟨hi0, hbox0⟩
    have ht0s : t0 < (10 : ℚ)^30 := hsmall i0 t0 ht0
    have h3038 : (10 : ℚ)^30 < (10 : ℚ)^38 := by norm_num
    have hble : (Lb.foldl (bestStep isect_fn ray) ((10 : ℚ)^30, 0)).1 ≤ t0 :=
      foldBest_le_mem isect_fn ray Lb _ i0 t0 hi0b ht0
    have hlle : (Ll.foldl (bestStep isect_fn ray) ((10 : ℚ)^38, 0)).1 ≤ t0 :=
      foldBest_le_mem isect_fn ray Ll _ i0 t0 hi0l ht0
    rcases foldBest_realizes isect_fn ray Lb ((10 : ℚ)^30, 0) with hb | ⟨ib, hib, hisb, hidb, hltb⟩
    · exfalso
      rw [hb] at hble
      have hcon : (10 : ℚ)^30 ≤ t0 := hble
      linarith
    rcases foldBest_realizes isect_fn ray Ll ((10 : ℚ)^38, 0) with hl | ⟨il, hil, hisl, hidl, hltl⟩
    · exfalso
      rw [hl] at hlle
      have hcon : (10 : ℚ)^38 ≤ t0 := hlle
      linarith
    have hibn : ib < n := hLbmem ib hib
    have hbox_ib := hcons ib _ hibn hisb
    have hibl : ib ∈ Ll := (hLlmem ib).mpr ⟨hibn, hbox_ib⟩
    have h1 : (Ll.foldl (bestStep isect_fn ray) ((10 : ℚ)^38, 0)).1 ≤
        (Lb.foldl (bestStep isect_fn ray) ((10 : ℚ)^30, 0)).1 :=
      foldBest_le_mem isect_fn ray Ll _ ib _ hibl hisb
    have hiln : il < n := ((hLlmem il).mp hil).1
    have hbox_il : (bb il).intersect ray.origin ray.invDir = true := ((hLlmem il).mp hil).2
    have hilb : il ∈ Lb := hLbin il hiln hbox_il
    have h2 : (Lb.foldl (bestStep isect_fn ray) ((10 : ℚ)^30, 0)).1 ≤
        (Ll.foldl (bestStep isect_fn ray) ((10 : ℚ)^38, 0)).1 :=
      foldBest_le_mem isect_fn ray Lb _ il _ hilb hisl
    have hteq : (Lb.foldl (bestStep isect_fn ray) ((10 : ℚ)^30, 0)).1 =
        (Ll.foldl (bestStep isect_fn ray) ((10 : ℚ)^38, 0)).1 := le_antisymm h2 h1
    have hideq : ib = il := huniq ib il _ hibn hiln hisb (by rw [hteq]; exact hisl)
    have hltb2 : (Lb.foldl (bestStep isect_fn ray) ((10 : ℚ)^30, 0)).1 < (10 : ℚ)^30 := hltb
    have hltl2 : (Ll.foldl (bestStep isect_fn ray) ((10 : ℚ)^38, 0)).1 < (10 : ℚ)^38 := hltl
    rw [if_pos hltb2, if_pos hltl2]
    have hsid : (Lb.foldl (bestStep isect_fn ray) ((10 : ℚ)^30, 0)).2 =
        (Ll.foldl (bestStep isect_fn ray) ((10 : ℚ)^38, 0)).2 := by
      rw [hidb, hidl, hideq]
    rw [hteq, hsid]
  · have hnone : ∀ i, i < n → isect_fn i ray = none := by
      intro i hi
      cases hx : isect_fn i ray with
      | none => rfl
      | some t => exact absurd ⟨i, t, hi, hx⟩ hP
    have hb0 : Lb.foldl (bestStep isect_fn ray) ((10 : ℚ)^30, 0) = ((10 : ℚ)^30, 0) :=
      foldBest_id isect_fn ray Lb _ (fun i hi => hnone i (hLbmem i hi))
    have hl0 : Ll.foldl (bestStep isect_fn ray) ((10 : ℚ)^38, 0) = ((10 : ℚ)^38, 0) :=
      foldBest_id isect_fn ray Ll _ (fun i hi => hnone i ((hLlmem i).mp hi).1)
    rw [hb0, hl0]
    norm_num

/-- C3 counterexample: with the same primitives and the same per-primitive
intersection function, `BVH::intersect` after `BVH::build` and
`LinearIntersector::intersect` disagree, although each ray hits a
primitive's AABB.  (i) Sentinel mismatch: a hit at `t = 1e31` lies between
the BVH sentinel `1e30` and the linear sentinel `1e38`, so the BVH reports a
miss while the linear search reports the hit.  (ii) Tie-breaking: two
primitives hit at the same distance `5`; the linear search keeps the first
(id 0, strict `<` never replaces it), the BVH visits the boxes in tree order
and returns id 1.  (iii) A hit whose primitive box is missed by the ray is
skipped by the per-primitive box test of the linear search but found through
a two-primitive BVH leaf whose merged box is hit. -/
theorem C3_bvh_linear_counterexample :
    (BVH.intersect (BVH.build 1 (fun _ => ⟨⟨0, 0, 0⟩, ⟨1, 1, 1⟩⟩))
        ⟨⟨0, 0, 0⟩, ⟨1, 1, 1⟩⟩ (fun _ _ => some ((10 : ℚ)^31)) = none ∧
      (LinearIntersector.prepare_for_rendering 1 (fun _ => ⟨⟨0, 0, 0⟩, ⟨1, 1, 1⟩⟩)).intersect
        ⟨⟨0, 0, 0⟩, ⟨1, 1, 1⟩⟩ (fun _ _ => some ((10 : ℚ)^31)) = some ⟨(10 : ℚ)^31, 0⟩) ∧
    (BVH.intersect
        (BVH.build 3 (fun i => if i = 0 then ⟨⟨0, 0, 0⟩, ⟨1, 1, 1⟩⟩
          else ⟨⟨10, 0, 0⟩, ⟨11, 1, 1⟩⟩))
        ⟨⟨-1, 1/2, 1/2⟩, ⟨1, 1/1000, 1/1000⟩⟩
        (fun i _ => if i = 0 then some 5 else if i = 1 then some 5 else none) = some ⟨5, 1⟩ ∧
      (LinearIntersector.prepare_for_rendering 3
          (fun i => if i = 0 then ⟨⟨0, 0, 0⟩, ⟨1, 1, 1⟩⟩ else ⟨⟨10, 0, 0⟩, ⟨11, 1, 1⟩⟩)).intersect
        ⟨⟨-1, 1/2, 1/2⟩, ⟨1, 1/1000, 1/1000⟩⟩
        (fun i _ => if i = 0 then some 5 else if i = 1 then some 5 else none) = some ⟨5, 0⟩) ∧
    (BVH.intersect
        (BVH.build 2 (fun i => if i = 0 then ⟨⟨0, 0, 0⟩, ⟨1, 1, 1⟩⟩
          else ⟨⟨5, 5, 5⟩, ⟨6, 6, 6⟩⟩))
        ⟨⟨-1, 1/2, 1/2⟩, ⟨1, 1/1000, 1/1000⟩⟩
        (fun i _ => if i = 1 then some 7 else none) = some ⟨7, 1⟩ ∧
      (LinearIntersector.prepare_for_rendering 2
          (fun i => if i = 0 then ⟨⟨0, 0, 0⟩, ⟨1, 1, 1⟩⟩ else ⟨⟨5, 5, 5⟩, ⟨6, 6, 6⟩⟩)).intersect
        ⟨⟨-1, 1/2, 1/2⟩, ⟨1, 1/1000, 1/1000⟩⟩
        (fun i _ => if i = 1 then some 7 else none) = none) :=
  ⟨⟨by with_unfolding_all rfl, by with_unfolding_all rfl⟩,
   ⟨by with_unfolding_all rfl, by with_unfolding_all rfl⟩,
   ⟨by with_unfolding_all rfl, by with_unfolding_all rfl⟩⟩

/-- Witness for the amended C3 theorem: one unit-box primitive, a ray that
hits it, a constant hit at `t = 1/2`; every hypothesis holds and both
intersectors agree. -/
theorem C3_bvh_matches_linear_intersector_witness :
    1 ≤ 1 ∧
    (∀ i, i < 1 → AABBvalid ((fun _ => (⟨⟨0, 0, 0⟩, ⟨1, 1, 1⟩⟩ : AABB)) i)) ∧
    (∀ i t, (fun (_ : ℕ) (_ : Ray) => some ((1 : ℚ)/2)) i
        (⟨⟨-1, 1/2, 1/2⟩, ⟨1, 1/1000, 1/1000⟩⟩ : Ray) = some t → t < (10 : ℚ)^30) ∧
    (∀ i t, i < 1 → (fun (_ : ℕ) (_ : Ray) => some ((1 : ℚ)/2)) i
        (⟨⟨-1, 1/2, 1/2⟩, ⟨1, 1/1000, 1/1000⟩⟩ : Ray) = some t →
      ((fun _ => (⟨⟨0, 0, 0⟩, ⟨1, 1, 1⟩⟩ : AABB)) i).intersect
        (⟨⟨-1, 1/2, 1/2⟩, ⟨1, 1/1000, 1/1000⟩⟩ : Ray).origin
        (⟨⟨-1, 1/2, 1/2⟩, ⟨1, 1/1000, 1/1000⟩⟩ : Ray).invDir = true) ∧
    (∀ i j t, i < 1 → j < 1 →
      (fun (_ : ℕ) (_ : Ray) => some ((1 : ℚ)/2)) i
        (⟨⟨-1, 1/2, 1/2⟩, ⟨1, 1/1000, 1/1000⟩⟩ : Ray) = some t →
      (fun (_ : ℕ) (_ : Ray) => some ((1 : ℚ)/2)) j
        (⟨⟨-1, 1/2, 1/2⟩, ⟨1, 1/1000, 1/1000⟩⟩ : Ray) = some t → i = j) ∧
    BVH.intersect (BVH.build 1 (fun _ => (⟨⟨0, 0, 0⟩, ⟨1, 1, 1⟩⟩ : AABB)))
        (⟨⟨-1, 1/2, 1/2⟩, ⟨1, 1/1000, 1/1000⟩⟩ : Ray)
        (fun (_ : ℕ) (_ : Ray) => some ((1 : ℚ)/2)) =
      (LinearIntersector.prepare_for_rendering 1
          (fun _ => (⟨⟨0, 0, 0⟩, ⟨1, 1, 1⟩⟩ : AABB))).intersect
        (⟨⟨-1, 1/2, 1/2⟩, ⟨1, 1/1000, 1/1000⟩⟩ : Ray)
        (fun (_ : ℕ) (_ : Ray) => some ((1 : ℚ)/2)) := by
  have h2 : ∀ i, i < 1 → AABBvalid ((fun _ => (⟨⟨0, 0, 0⟩, ⟨1, 1, 1⟩⟩ : AABB)) i) := by
    intro i hi
    exact ⟨by norm_num, by norm_num, by norm_num⟩
  have h3 : ∀ i t, (fun (_ : ℕ) (_ : Ray) => some ((1 : ℚ)/2)) i
      (⟨⟨-1, 1/2, 1/2⟩, ⟨1, 1/1000, 1/1000⟩⟩ : Ray) = some t → t < (10 : ℚ)^30 := by
    intro i t h
    have h4 : some ((1 : ℚ)/2) = some t := h
    injection h4 with h5
    rw [← h5]
    norm_num
  have h4 : ∀ i t, i < 1 → (fun (_ : ℕ) (_ : Ray) => some ((1 : ℚ)/2)) i
      (⟨⟨-1, 1/2, 1/2⟩, ⟨1, 1/1000, 1/1000⟩⟩ : Ray) = some t →
      ((fun _ => (⟨⟨0, 0, 0⟩, ⟨1, 1, 1⟩⟩ : AABB)) i).intersect
        (⟨⟨-1, 1/2, 1/2⟩, ⟨1, 1/1000, 1/1000⟩⟩ : Ray).origin
        (⟨⟨-1, 1/2, 1/2⟩, ⟨1, 1/1000, 1/1000⟩⟩ : Ray).invDir = true := by
    intro i t hi h
    show AABB.intersect ⟨⟨0, 0, 0⟩, ⟨1, 1, 1⟩⟩
      (⟨⟨-1, 1/2, 1/2⟩, ⟨1, 1/1000, 1/1000⟩⟩ : Ray).origin
      (⟨⟨-1, 1/2, 1/2⟩, ⟨1, 1/1000, 1/1000⟩⟩ : Ray).invDir = true
    with_unfolding_all rfl
  have h5 : ∀ i j t, i < 1 → j < 1 →
      (fun (_ : ℕ) (_ : Ray) => some ((1 : ℚ)/2)) i
        (⟨⟨-1, 1/2, 1/2⟩, ⟨1, 1/1000, 1/1000⟩⟩ : Ray) = some t →
      (fun (_ : ℕ) (_ : Ray) => some ((1 : ℚ)/2)) j
        (⟨⟨-1, 1/2, 1/2⟩, ⟨1, 1/1000, 1/1000⟩⟩ : Ray) = some t → i = j := by
    intro i j t hi hj _ _
    omega
  exact ⟨by norm_num, h2, h3, h4, h5,
    C3_bvh_matches_linear_intersector 1 (fun _ => (⟨⟨0, 0, 0⟩, ⟨1, 1, 1⟩⟩ : AABB))
      (⟨⟨-1, 1/2, 1/2⟩, ⟨1, 1/1000, 1/1000⟩⟩ : Ray)
      (fun (_ : ℕ) (_ : Ray) => some ((1 : ℚ)/2)) (by norm_num) h2 h3 h4 h5⟩
